import Mathlib

/-!
Verification of the matrix-market-transform entry-reordering pipeline.

The Rust sources are shallowly embedded: `usize` values become `Nat` (with the
sign/mark bit of the in-place permutation algorithm modelled as bit 63),
`f32`/`f64` payload values become exact rationals (the reordering engine never
inspects them and every literal exercised by a claim is exactly representable),
fallible operations (panics via `unwrap`, out-of-bounds indexing, asserts)
become `Option` with `none` for a panic, and the rayon-parallel loops are
modelled by their sequential semantics (each parallel phase writes disjoint,
pre-allocated destinations, so the sequential result is the specified one).
-/

namespace MMT

/-- Mask with only the most-significant bit of a 64-bit word set
(`isize::MIN as usize` in lib.rs and `isize::min_value() as usize` in
permutation.rs). -/
def MARK : Nat := 2 ^ 63

/-- Mark the element at an index as visited by toggling the most-significant
bit (`mark_visited` in lib.rs). -/
def mark_visited (idx : Nat) : Nat := idx ^^^ MARK

/-- Check whether the element at an index has been visited by reading the
most-significant bit (`is_visited` in lib.rs, `idx_is_marked` in
permutation.rs). -/
def is_visited (idx : Nat) : Bool := idx &&& MARK != 0

/-- Toggle of the mark bit used by permutation.rs (`toggle_mark_idx`); the
same operation as `mark_visited`. -/
def toggle_mark_idx (idx : Nat) : Nat := idx ^^^ MARK

theorem mark_visited_mark_visited (x : Nat) : mark_visited (mark_visited x) = x := by
  simp [mark_visited, Nat.xor_assoc]

theorem is_visited_eq_testBit (x : Nat) : is_visited x = x.testBit 63 := by
  rw [is_visited, MARK, Nat.and_two_pow]
  cases h : x.testBit 63 <;> simp [h]

theorem is_visited_of_lt (x : Nat) (h : x < MARK) : is_visited x = false := by
  rw [is_visited_eq_testBit]
  exact Nat.testBit_lt_two_pow h

theorem is_visited_mark_visited (x : Nat) (h : x < MARK) :
    is_visited (mark_visited x) = true := by
  rw [is_visited_eq_testBit, mark_visited, Nat.testBit_xor,
    Nat.testBit_lt_two_pow h, MARK, Nat.testBit_two_pow]
  simp

theorem mark_visited_ne (x y : Nat) (hx : x < MARK) (hy : y < MARK) :
    mark_visited x ≠ y := by
  intro h
  have h1 := is_visited_mark_visited x hx
  rw [h] at h1
  rw [is_visited_of_lt y hy] at h1
  simp at h1

/-! List helpers: defaulted-get after set, and the swap used by `Vec::swap`. -/

theorem getD_set_self {α : Type _} {l : List α} {i : Nat} {a d : α}
    (h : i < l.length) : (l.set i a).getD i d = a := by
  simp [List.getD_eq_getElem?_getD, List.getElem?_set_self h]

theorem getD_set_ne {α : Type _} {l : List α} {i j : Nat} {a d : α}
    (h : i ≠ j) : (l.set i a).getD j d = l.getD j d := by
  simp [List.getD_eq_getElem?_getD, List.getElem?_set_ne h]

/-- Swap of two positions of a list, modelling `Vec::swap`/`slice::swap`
(which panics out of bounds; an out-of-bounds swap never occurs in paths the
claims reach, and the enclosing loop checks bounds where Rust would panic). -/
def listSwap {α : Type _} (l : List α) (a b : Nat) : List α :=
  match l[a]?, l[b]? with
  | some x, some y => (l.set a y).set b x
  | _, _ => l

theorem listSwap_length {α : Type _} (l : List α) (a b : Nat) :
    (listSwap l a b).length = l.length := by
  rw [listSwap]
  cases l[a]? <;> cases l[b]? <;> simp

theorem getD_listSwap_fst {α : Type _} (l : List α) {a b : Nat} (d : α)
    (ha : a < l.length) (hb : b < l.length) (hne : a ≠ b) :
    (listSwap l a b).getD a d = l.getD b d := by
  rw [listSwap, List.getElem?_eq_getElem ha, List.getElem?_eq_getElem hb]
  rw [getD_set_ne (Ne.symm hne), getD_set_self ha,
    List.getD_eq_getElem?_getD, List.getElem?_eq_getElem hb]
  rfl

theorem getD_listSwap_snd {α : Type _} (l : List α) {a b : Nat} (d : α)
    (ha : a < l.length) (hb : b < l.length) :
    (listSwap l a b).getD b d = l.getD a d := by
  rw [listSwap, List.getElem?_eq_getElem ha, List.getElem?_eq_getElem hb]
  have hb' : b < (l.set a l[b]).length := by simpa using hb
  rw [getD_set_self hb', List.getD_eq_getElem?_getD, List.getElem?_eq_getElem ha]
  rfl

theorem getD_listSwap_other {α : Type _} (l : List α) {a b k : Nat} (d : α)
    (hka : k ≠ a) (hkb : k ≠ b) :
    (listSwap l a b).getD k d = l.getD k d := by
  rw [listSwap]
  cases l[a]? <;> cases l[b]? <;>
    simp [List.getD_eq_getElem?_getD, List.getElem?_set_ne (Ne.symm hkb),
      List.getElem?_set_ne (Ne.symm hka)]

/-! The Entry Store (struct `Matrix` and enum `MatrixData` of lib.rs). -/

/-- Value payload per declared element type (`enum MatrixData` in lib.rs;
`f32`/`f64` selection by the `x64` feature does not affect any claim and the
values are modelled as exact rationals, see the header comment). -/
inductive MatrixData where
  | real (xs : List Rat)
  | complex (xs ys : List Rat)
  | integer (xs : List Int)
  | bool
deriving DecidableEq, Repr

/-- The declared element type (`enum DataType` in lib.rs). -/
inductive DataType where
  | real
  | complex
  | integer
  | bool
deriving DecidableEq, Repr

/-- `MatrixData::new`: the empty payload of the given element type. -/
def MatrixData.new : DataType → MatrixData
  | .real => .real []
  | .complex => .complex [] []
  | .integer => .integer []
  | .bool => .bool

/-- The Entry Store (`struct Matrix` in lib.rs): parallel coordinate arrays,
the value payload, and the dimension metadata from the header. -/
structure Matrix where
  rows : List Nat
  cols : List Nat
  vals : MatrixData
  nrows : Nat
  ncols : Nat
  nvals : Nat
deriving DecidableEq, Repr

/-- Invariant A of the spec: all parallel arrays have length `nvals`. -/
def InvariantA (m : Matrix) : Prop :=
  m.rows.length = m.nvals ∧ m.cols.length = m.nvals ∧
    match m.vals with
    | .real xs => xs.length = m.nvals
    | .complex xs ys => xs.length = m.nvals ∧ ys.length = m.nvals
    | .integer xs => xs.length = m.nvals
    | .bool => True

instance (m : Matrix) : Decidable (InvariantA m) := by
  unfold InvariantA
  cases m.vals <;> exact inferInstance

/-- The (row, col) key of position i. -/
def Matrix.keyAt (m : Matrix) (i : Nat) : Nat × Nat :=
  (m.rows.getD i 0, m.cols.getD i 0)

/-- Invariant B of the spec: no two entries share the same (row, col) pair. -/
def InvariantB (m : Matrix) : Prop :=
  ((List.range m.nvals).map m.keyAt).Nodup

instance (m : Matrix) : Decidable (InvariantB m) := by
  unfold InvariantB; exact inferInstance

/-- `Matrix::swap` (lib.rs): exchange positions a and b of rows, cols and
every active value component together. -/
def Matrix.swap (m : Matrix) (a b : Nat) : Matrix :=
  { m with
    rows := listSwap m.rows a b
    cols := listSwap m.cols a b
    vals :=
      match m.vals with
      | .real xs => .real (listSwap xs a b)
      | .complex xs ys => .complex (listSwap xs a b) (listSwap ys a b)
      | .integer xs => .integer (listSwap xs a b)
      | .bool => .bool }

/-! The cycle-following in-place permutation pass.  The loop appears twice in
the repository with the same body: `Matrix::apply_permutation` (lib.rs, with
`Matrix::swap` as the state update) and
`Permutation::apply_slice_bkwd_in_place` (permutation.rs, with `slice::swap`).
It is embedded once, abstracted over the swapped state. -/

/-- The inner `while i != j_idx` walk of one permutation cycle.  `fuel`
bounds the walk: a run that would exceed it, or a `j_idx` out of bounds
(an index panic in Rust's `swap`), yields `none`; on a valid permutation the
walk closes its cycle within `n` steps, as proved below. -/
def cycleWalk {σ : Type _} (swapFn : σ → Nat → Nat → σ) (n i : Nat) :
    Nat → Nat → Nat → List Nat → σ → Option (List Nat × σ)
  | fuel, j, jIdx, p, s =>
    if jIdx = i then
      some (p.set j (mark_visited jIdx), s)
    else
      match fuel with
      | 0 => none
      | fuel + 1 =>
        if jIdx < n then
          let p1 := p.set j (mark_visited jIdx)
          cycleWalk swapFn n i fuel jIdx (p1.getD jIdx 0) p1 (swapFn s j jIdx)
        else none

/-- The outer `for i in 0..n` loop of the pass: skip slots already marked
visited, otherwise walk the cycle starting there. -/
def applyPermOuter {σ : Type _} (swapFn : σ → Nat → Nat → σ) (n : Nat) :
    List Nat → List Nat → σ → Option (List Nat × σ)
  | [], p, s => some (p, s)
  | i :: rest, p, s =>
    if is_visited (p.getD i 0) then
      applyPermOuter swapFn n rest p s
    else
      match cycleWalk swapFn n i n i (p.getD i 0) p s with
      | none => none
      | some (p', s') => applyPermOuter swapFn n rest p' s'

/-- The full cycle-following pass over positions `0..n`. -/
def applyPermFull {σ : Type _} (swapFn : σ → Nat → Nat → σ) (n : Nat)
    (p : List Nat) (s : σ) : Option (List Nat × σ) :=
  applyPermOuter swapFn n (List.range n) p s

/-- `Matrix::apply_permutation` (lib.rs), also returning the final state of
the (consumed) permutation array so that its mark bits can be inspected. -/
def Matrix.applyPermutationFull (m : Matrix) (permutation : List Nat) :
    Option (List Nat × Matrix) :=
  applyPermFull Matrix.swap m.nvals permutation m

/-- `Matrix::apply_permutation` (lib.rs): the store after the pass (the
permutation vector is consumed). -/
def Matrix.apply_permutation (m : Matrix) (permutation : List Nat) :
    Option Matrix :=
  (m.applyPermutationFull permutation).map Prod.snd

/-- `Permutation::apply_slice_bkwd_in_place` (permutation.rs): the same
cycle-following loop over a slice, guarded by the length asserts, followed by
the final unmarking pass restoring the permutation's indices. -/
def apply_slice_bkwd_in_place {α : Type _} (indices : List Nat) (s : List α) :
    Option (List Nat × List α) :=
  if s.length = indices.length ∧ s.length ≤ MARK - 1 then
    match applyPermFull listSwap indices.length indices s with
    | none => none
    | some (p', s') => some (p'.map toggle_mark_idx, s')
  else none

/-! The materialize-and-scatter sorting strategy (`Matrix::sort_row_major` and
`Matrix::sort_col_major`, lib.rs lines 180-324). -/

/-- Lexicographic "less or equal" on Nat pairs: Rust's derived tuple
`Ord::cmp` is not `Greater`.  The unstable sorts guarantee exactly that
adjacent elements of the result compare this way. -/
def pairLe (a b : Nat × Nat) : Bool :=
  decide (a.1 < b.1) || (a.1 == b.1 && decide (a.2 ≤ b.2))

/-- Truncating write-back of the sorted tuples into an existing parallel
array: the rayon zip of `into_par_iter` with `par_iter_mut` stops at the
shorter side, so positions of `old` beyond `new.length` keep their previous
contents.  When the lengths agree (Invariant A) this is just `new`. -/
def scatter {α : Type _} (old new : List α) : List α :=
  new.take old.length ++ old.drop new.length

/-- Model of slice sorting by a boolean comparator (`par_sort_unstable_by` /
`sort_unstable_by`): an insertion sort.  Any two comparison sorts agree
whenever the comparator admits no ties, the case licensed by Invariant B,
so the choice of algorithm is immaterial to every property stated below. -/
def sortBy {α : Type _} (l : List α) (le : α → α → Bool) : List α :=
  List.insertionSort (fun a b => le a b = true) l

/-- Shared body of `Matrix::sort_row_major` and `Matrix::sort_col_major`
(the two are textual duplicates differing only in the comparison key, here
`keyOf`).  Each value-shape arm materializes one tuple per position,
sorts the tuples by the key (`par_sort_unstable_by`; modelled by `sortBy`,
which agrees with every comparison sort whenever the keys are distinct, the
case licensed by Invariant B), and scatters them back into the parallel
arrays. -/
def Matrix.sortMajor (m : Matrix) (keyOf : Nat × Nat → Nat × Nat) : Matrix :=
  match m.vals with
  | .real xs =>
    let zipped := (List.range m.nvals).map
      (fun i => (m.rows.getD i 0, m.cols.getD i 0, xs.getD i 0))
    let zipped := sortBy zipped
      (fun a b => pairLe (keyOf (a.1, a.2.1)) (keyOf (b.1, b.2.1)))
    { m with
      rows := scatter m.rows (zipped.map (fun e => e.1))
      cols := scatter m.cols (zipped.map (fun e => e.2.1))
      vals := .real (scatter xs (zipped.map (fun e => e.2.2))) }
  | .complex xs ys =>
    let zipped := (List.range m.nvals).map
      (fun i => (m.rows.getD i 0, m.cols.getD i 0, xs.getD i 0, ys.getD i 0))
    let zipped := sortBy zipped
      (fun a b => pairLe (keyOf (a.1, a.2.1)) (keyOf (b.1, b.2.1)))
    { m with
      rows := scatter m.rows (zipped.map (fun e => e.1))
      cols := scatter m.cols (zipped.map (fun e => e.2.1))
      vals := .complex (scatter xs (zipped.map (fun e => e.2.2.1)))
        (scatter ys (zipped.map (fun e => e.2.2.2))) }
  | .integer xs =>
    let zipped := (List.range m.nvals).map
      (fun i => (m.rows.getD i 0, m.cols.getD i 0, xs.getD i 0))
    let zipped := sortBy zipped
      (fun a b => pairLe (keyOf (a.1, a.2.1)) (keyOf (b.1, b.2.1)))
    { m with
      rows := scatter m.rows (zipped.map (fun e => e.1))
      cols := scatter m.cols (zipped.map (fun e => e.2.1))
      vals := .integer (scatter xs (zipped.map (fun e => e.2.2))) }
  | .bool =>
    let zipped := (List.range m.nvals).map
      (fun i => (m.rows.getD i 0, m.cols.getD i 0))
    let zipped := sortBy zipped
      (fun a b => pairLe (keyOf a) (keyOf b))
    { m with
      rows := scatter m.rows (zipped.map (fun e => e.1))
      cols := scatter m.cols (zipped.map (fun e => e.2)) }

/-- `Matrix::sort_row_major`: tuples compared by `(row, col)`. -/
def Matrix.sort_row_major (m : Matrix) : Matrix :=
  m.sortMajor id

/-- `Matrix::sort_col_major`: tuples compared by `(col, row)`. -/
def Matrix.sort_col_major (m : Matrix) : Matrix :=
  m.sortMajor Prod.swap

/-- `Matrix::permute_row_major`: sort the identity index vector
`(0..nvals).collect()` by the `(row, col)` key (`sort_unstable_by`, modelled
by `sortBy`) and run the cycle-following pass. -/
def Matrix.permute_row_major (m : Matrix) : Option Matrix :=
  let permutation := sortBy (List.range m.nvals)
    (fun a b => pairLe (m.rows.getD a 0, m.cols.getD a 0)
      (m.rows.getD b 0, m.cols.getD b 0))
  m.apply_permutation permutation

/-- `Matrix::permute_col_major`: as `permute_row_major` with the
`(col, row)` key. -/
def Matrix.permute_col_major (m : Matrix) : Option Matrix :=
  let permutation := sortBy (List.range m.nvals)
    (fun a b => pairLe (m.cols.getD a 0, m.rows.getD a 0)
      (m.cols.getD b 0, m.rows.getD b 0))
  m.apply_permutation permutation

/-! Text tokenization and numeric parsing, modelling the std operations the
readers use.  Input byte streams are modelled as `List Char` (all inputs the
claims exercise are ASCII, where bytes and chars coincide). -/

/-- `u8::is_ascii_whitespace` / `char::is_ascii_whitespace`: space, tab,
newline, form feed, carriage return. -/
def isAsciiWs (c : Char) : Bool :=
  c = ' ' || c = '\t' || c = '\n' || c = '\x0C' || c = '\r'

/-- Split at every newline, keeping empty pieces: `slice::split(|&b| b ==
b'\n')` as used by `from_mmap` (an input ending in a newline yields a final
empty piece; the empty input yields one empty piece). -/
def splitNl : List Char → List (List Char)
  | [] => [[]]
  | c :: rest =>
    if c = '\n' then [] :: splitNl rest
    else
      match splitNl rest with
      | [] => [[c]]
      | l :: ls => (c :: l) :: ls

/-- Drop one trailing carriage return, as `BufRead::lines` does for a line
that ended in `\r\n`. -/
def dropTrailCr (l : List Char) : List Char :=
  match l.getLast? with
  | some '\r' => l.dropLast
  | _ => l

/-- `BufRead::lines` as used by `from_reader`: newline-separated lines
without their terminators, no trailing empty line for an input ending in a
newline, and no lines at all for the empty input. -/
def readerLines (input : List Char) : List (List Char) :=
  let ls := splitNl input
  let init := ls.dropLast.map dropTrailCr
  match ls.getLast? with
  | some last => if last = [] then init else init ++ [dropTrailCr last]
  | none => init

/-- Split at every ascii-whitespace byte, keeping empty pieces:
`slice::split(|&b| b.is_ascii_whitespace())` as used on `from_mmap`'s header
and data lines. -/
def splitWsKeep : List Char → List (List Char)
  | [] => [[]]
  | c :: rest =>
    if isAsciiWs c then [] :: splitWsKeep rest
    else
      match splitWsKeep rest with
      | [] => [[c]]
      | l :: ls => (c :: l) :: ls

/-- `str::split_ascii_whitespace` as used by `from_reader`: the nonempty
maximal runs of non-whitespace. -/
def splitAsciiWs (l : List Char) : List (List Char) :=
  (splitWsKeep l).filter (fun t => !t.isEmpty)

/-- `<[u8]>::trim_ascii`: drop leading and trailing ascii whitespace. -/
def trimAscii (l : List Char) : List Char :=
  ((l.dropWhile isAsciiWs).reverse.dropWhile isAsciiWs).reverse

/-- Accumulate decimal digits; any non-digit is a parse error. -/
def parseDigitsAux : List Char → Nat → Option Nat
  | [], acc => some acc
  | c :: rest, acc =>
    if c.isDigit then parseDigitsAux rest (acc * 10 + (c.toNat - '0'.toNat))
    else none

/-- One or more decimal digits. -/
def parseDigits (l : List Char) : Option Nat :=
  if l.isEmpty then none else parseDigitsAux l 0

/-- `usize::from_str` (row/col/header fields): optional `+` sign then one or
more ascii digits.  The fixed-width overflow error is omitted: no claim
exercises values near `usize::MAX`. -/
def parseNat (l : List Char) : Option Nat :=
  match l with
  | '+' :: rest => parseDigits rest
  | _ => parseDigits l

/-- `i32`/`i64` `from_str` (Integer payloads): optional sign then digits.
The fixed-width overflow error is omitted: no claim exercises overflow. -/
def parseInt (l : List Char) : Option Int :=
  match l with
  | '+' :: rest => (parseDigits rest).map Int.ofNat
  | '-' :: rest => (parseDigits rest).map (fun d => -(Int.ofNat d))
  | _ => (parseDigits l).map Int.ofNat

/-- Numeric value of a digit run together with its length (for fractional
parts); `none` when a non-digit occurs. -/
def decDigitsVal (l : List Char) : Nat × Nat :=
  l.foldl (fun acc c => (acc.1 * 10 + (c.toNat - '0'.toNat), acc.2 + 1)) (0, 0)

/-- `f32`/`f64` `from_str` on finite decimal notation
(`[sign] (digits [. digits*] | . digits) [(e|E) [sign] digits]`), producing
the exact decimal value as a rational.  The final rounding to binary is
omitted: every literal a claim exercises is exactly representable, and the
reader-equivalence claims depend only on equal tokens parsing equally.  The
special forms `inf`/`NaN` are not modelled (no claim mentions them). -/
def parseReal (l : List Char) : Option Rat :=
  let (sgn, l) : Int × List Char :=
    match l with
    | '-' :: rest => (-1, rest)
    | '+' :: rest => (1, rest)
    | _ => (1, l)
  let intPart := l.takeWhile Char.isDigit
  let l := l.dropWhile Char.isDigit
  let (hasDot, fracPart, l) : Bool × List Char × List Char :=
    match l with
    | '.' :: rest => (true, rest.takeWhile Char.isDigit, rest.dropWhile Char.isDigit)
    | _ => (false, [], l)
  if intPart.isEmpty ∧ (¬hasDot ∨ fracPart.isEmpty) then none
  else
    let exp : Option Int :=
      match l with
      | [] => some 0
      | 'e' :: rest | 'E' :: rest =>
        match rest with
        | '+' :: ds => (parseDigits ds).map Int.ofNat
        | '-' :: ds => (parseDigits ds).map (fun d => -(Int.ofNat d))
        | ds => (parseDigits ds).map Int.ofNat
      | _ => none
    match exp with
    | none => none
    | some e =>
      let (iv, _) := decDigitsVal intPart
      let (fv, fl) := decDigitsVal fracPart
      let mant : Int := sgn * (iv * 10 ^ fl + fv)
      some (if 0 ≤ e then mkRat (mant * 10 ^ e.toNat) (10 ^ fl)
        else mkRat mant (10 ^ (fl + (-e).toNat)))

/-! The Format Reader: `Matrix::from_reader` and `Matrix::from_mmap`. -/

/-- The empty Entry Store returned for an input that is empty or contains
only comments. -/
def emptyMatrix (data_type : DataType) : Matrix :=
  { rows := [], cols := [], vals := MatrixData.new data_type,
    nrows := 0, ncols := 0, nvals := 0 }

/-- One data line of `Matrix::from_reader`: split on ascii whitespace, parse
and push row and col, then parse and push the per-variant payload fields.
A missing or unparseable field is an `unwrap` panic in Rust (`none` here). -/
def readerLine (line : List Char) (rows cols : List Nat) (vals : MatrixData) :
    Option (List Nat × List Nat × MatrixData) := do
  let parts := splitAsciiWs line
  let row ← (parts[0]?).bind parseNat
  let col ← (parts[1]?).bind parseNat
  let rows := rows ++ [row]
  let cols := cols ++ [col]
  match vals with
  | .real xs => do
    let x ← (parts[2]?).bind parseReal
    pure (rows, cols, .real (xs ++ [x]))
  | .complex xs ys => do
    let x ← (parts[2]?).bind parseReal
    let y ← (parts[3]?).bind parseReal
    pure (rows, cols, .complex (xs ++ [x]) (ys ++ [y]))
  | .integer xs => do
    let x ← (parts[2]?).bind parseInt
    pure (rows, cols, .integer (xs ++ [x]))
  | .bool => pure (rows, cols, .bool)

/-- The `for line in lines` loop of `from_reader`: every remaining line is a
data line. -/
def readerLoop :
    List (List Char) → List Nat → List Nat → MatrixData →
      Option (List Nat × List Nat × MatrixData)
  | [], rows, cols, vals => some (rows, cols, vals)
  | line :: rest, rows, cols, vals => do
    let (rows, cols, vals) ← readerLine line rows cols vals
    readerLoop rest rows cols vals

/-- `Matrix::from_reader` (lib.rs lines 131-178): skip leading lines starting
with `%`, parse the header's first three whitespace-separated fields, then
parse every remaining line as a data line.  If no header line exists the
empty matrix is returned. -/
def Matrix.from_reader (input : List Char) (data_type : DataType) :
    Option Matrix :=
  let lines := (readerLines input).dropWhile (fun l => l.head? = some '%')
  match lines with
  | [] => some (emptyMatrix data_type)
  | header :: rest => do
    let parts := splitAsciiWs header
    let nrows ← (parts[0]?).bind parseNat
    let ncols ← (parts[1]?).bind parseNat
    let nvals ← (parts[2]?).bind parseNat
    let (rows, cols, vals) ← readerLoop rest [] [] (MatrixData.new data_type)
    pure { rows := rows, cols := cols, vals := vals,
           nrows := nrows, ncols := ncols, nvals := nvals }

/-- The `skip_while(|b| b.trim_ascii()[0] == b'%')` prefix of `from_mmap`:
indexing `[0]` of an all-whitespace line is a panic (`none`); in particular
the empty input, whose single split piece is empty, panics (as does the
`MmapOptions::map` of a zero-length file before it). -/
def mmapSkip : List (List Char) → Option (List (List Char))
  | [] => some []
  | l :: ls =>
    match trimAscii l with
    | [] => none
    | c :: _ => if c = '%' then mmapSkip ls else some (l :: ls)

/-- One data line of `from_mmap`'s Real arm: `trim_ascii` then byte split
(keeping empty tokens), parse fields 0, 1, 2. -/
def mmapLineReal (line : List Char) : Option (Nat × Nat × Rat) := do
  let parts := splitWsKeep (trimAscii line)
  let row ← (parts[0]?).bind parseNat
  let col ← (parts[1]?).bind parseNat
  let x ← (parts[2]?).bind parseReal
  pure (row, col, x)

/-- One data line of `from_mmap`'s Complex arm (note: no `trim_ascii`). -/
def mmapLineComplex (line : List Char) : Option (Nat × Nat × Rat × Rat) := do
  let parts := splitWsKeep line
  let row ← (parts[0]?).bind parseNat
  let col ← (parts[1]?).bind parseNat
  let x ← (parts[2]?).bind parseReal
  let y ← (parts[3]?).bind parseReal
  pure (row, col, x, y)

/-- One data line of `from_mmap`'s Integer arm (no `trim_ascii`). -/
def mmapLineInteger (line : List Char) : Option (Nat × Nat × Int) := do
  let parts := splitWsKeep line
  let row ← (parts[0]?).bind parseNat
  let col ← (parts[1]?).bind parseNat
  let x ← (parts[2]?).bind parseInt
  pure (row, col, x)

/-- One data line of `from_mmap`'s Bool arm (no `trim_ascii`). -/
def mmapLineBool (line : List Char) : Option (Nat × Nat) := do
  let parts := splitWsKeep line
  let row ← (parts[0]?).bind parseNat
  let col ← (parts[1]?).bind parseNat
  pure (row, col)

/-- Pad a list with a default value up to length n, modelling the pre-sized
`vec![0; nvals]` destinations whose tail the truncating rayon zip leaves
untouched when there are fewer than nvals data lines. -/
def padTo {α : Type _} (l : List α) (d : α) (n : Nat) : List α :=
  l ++ List.replicate (n - l.length) d

/-- `Matrix::from_mmap` (lib.rs lines 44-129): split the mapped bytes at
newlines, skip `%` lines (panicking on a blank line), parse the header by
byte split, then parse the first `nvals` remaining lines in parallel into the
pre-sized arrays (the rayon zips truncate to the shorter side). -/
def Matrix.from_mmap (input : List Char) (data_type : DataType) :
    Option Matrix := do
  let lines ← mmapSkip (splitNl input)
  match lines with
  | [] => pure (emptyMatrix data_type)
  | header :: rest => do
    let parts := splitWsKeep header
    let nrows ← (parts[0]?).bind parseNat
    let ncols ← (parts[1]?).bind parseNat
    let nvals ← (parts[2]?).bind parseNat
    let dls := rest.take nvals
    match data_type with
    | .real => do
      let ents ← dls.mapM mmapLineReal
      pure { rows := padTo (ents.map (fun e => e.1)) 0 nvals
             cols := padTo (ents.map (fun e => e.2.1)) 0 nvals
             vals := .real (padTo (ents.map (fun e => e.2.2)) 0 nvals)
             nrows := nrows, ncols := ncols, nvals := nvals }
    | .complex => do
      let ents ← dls.mapM mmapLineComplex
      pure { rows := padTo (ents.map (fun e => e.1)) 0 nvals
             cols := padTo (ents.map (fun e => e.2.1)) 0 nvals
             vals := .complex (padTo (ents.map (fun e => e.2.2.1)) 0 nvals)
               (padTo (ents.map (fun e => e.2.2.2)) 0 nvals)
             nrows := nrows, ncols := ncols, nvals := nvals }
    | .integer => do
      let ents ← dls.mapM mmapLineInteger
      pure { rows := padTo (ents.map (fun e => e.1)) 0 nvals
             cols := padTo (ents.map (fun e => e.2.1)) 0 nvals
             vals := .integer (padTo (ents.map (fun e => e.2.2)) 0 nvals)
             nrows := nrows, ncols := ncols, nvals := nvals }
    | .bool => do
      let ents ← dls.mapM mmapLineBool
      pure { rows := padTo (ents.map (fun e => e.1)) 0 nvals
             cols := padTo (ents.map (fun e => e.2)) 0 nvals
             vals := .bool
             nrows := nrows, ncols := ncols, nvals := nvals }

/-! The Format Writer (`impl fmt::Display for Matrix`) and the Debug
formatter. -/

/-- Fractional decimal digits of r/den by long division, with fuel. -/
def fracDigits (den : Nat) : Nat → Nat → List Char
  | _, 0 => []
  | r, fuel + 1 =>
    if r = 0 then []
    else Char.ofNat ('0'.toNat + r * 10 / den) :: fracDigits den (r * 10 % den) fuel

/-- Rust's `Display` for `f32`/`f64` prints the shortest decimal digits that
round-trip; in particular an integral value prints with no fractional part
(`5.0` prints as `"5"`).  Modelled exactly for values with a terminating
decimal expansion of at most 64 digits, which covers every float value a
claim exercises. -/
def fmtReal (q : Rat) : String :=
  if q.den = 1 then toString q.num
  else
    let sgn := if q.num < 0 then "-" else ""
    let a := q.num.natAbs
    sgn ++ toString (a / q.den) ++ "." ++
      String.mk (fracDigits q.den (a % q.den) 64)

/-- `impl fmt::Display for Matrix` (lib.rs lines 444-457): the header line
then one line per entry in current array order, fields separated by single
spaces, each line newline-terminated.  Entry i indexes `rows[i]` etc.
(in bounds under Invariant A, which every store the claims write satisfies). -/
def Matrix.display (m : Matrix) : String :=
  toString m.nrows ++ " " ++ toString m.ncols ++ " " ++ toString m.nvals ++ "\n" ++
    String.join ((List.range m.nvals).map (fun i =>
      match m.vals with
      | .real xs =>
        toString (m.rows.getD i 0) ++ " " ++ toString (m.cols.getD i 0) ++ " " ++
          fmtReal (xs.getD i 0) ++ "\n"
      | .complex xs ys =>
        toString (m.rows.getD i 0) ++ " " ++ toString (m.cols.getD i 0) ++ " " ++
          fmtReal (xs.getD i 0) ++ " " ++ fmtReal (ys.getD i 0) ++ "\n"
      | .integer xs =>
        toString (m.rows.getD i 0) ++ " " ++ toString (m.cols.getD i 0) ++ " " ++
          toString (xs.getD i 0) ++ "\n"
      | .bool =>
        toString (m.rows.getD i 0) ++ " " ++ toString (m.cols.getD i 0) ++ "\n"))

/-- Slicing `&l[..n]`, which panics (`none`) when `n > l.len()`. -/
def sliceTo {α : Type _} (l : List α) (n : Nat) : Option (List α) :=
  if n ≤ l.length then some (l.take n) else none

/-- `impl fmt::Debug for Matrix` (lib.rs lines 411-442): `n` is the
formatter width defaulting to 5 and `p` the precision defaulting to 2; the
row, col and active value arrays are sliced to `&arr[..n]` unconditionally,
so the formatter panics whenever `n` exceeds an array length.  The
`debug_struct` pretty-printed layout is schematic here (the claims about this
formatter concern only the slice bounds); the slices and the head= title
follow the source. -/
def Matrix.fmtDebug (m : Matrix) (width precision : Option Nat) :
    Option String := do
  let n := width.getD 5
  let p := precision.getD 2
  let name := if m.nvals ≤ n then "Matrix" else "Matrix (head=" ++ toString n ++ ")"
  let rowsSl ← sliceTo m.rows n
  let colsSl ← sliceTo m.cols n
  let core := name ++ " nrows: " ++ toString m.nrows ++ " ncols: " ++
    toString m.ncols ++ " nvals: " ++ toString m.nvals ++
    " rows: " ++ toString rowsSl ++ " cols: " ++ toString colsSl
  match m.vals with
  | .real xs => do
    let xsSl ← sliceTo xs n
    pure (core ++ " real: " ++ toString (xsSl.map fmtReal) ++ " p=" ++ toString p)
  | .complex xs ys => do
    let xsSl ← sliceTo xs n
    let ysSl ← sliceTo ys n
    pure (core ++ " real: " ++ toString (xsSl.map fmtReal) ++
      " imag: " ++ toString (ysSl.map fmtReal) ++ " p=" ++ toString p)
  | .integer xs => do
    let xsSl ← sliceTo xs n
    pure (core ++ " int: " ++ toString (xsSl.map toString))
  | .bool => pure core

/-! Correctness of the cycle-following pass.  The walk along one cycle is
characterized first: it performs a known sequence of permutation-slot writes
(`setPairs`) and state swaps (`applySwaps`) determined by the chain of
indices it visits. -/

/-- Apply a sequence of slot writes `a := mark_visited b` to the permutation
array. -/
def setPairs (P : List Nat) : List (Nat × Nat) → List Nat
  | [] => P
  | (a, b) :: rest => setPairs (P.set a (mark_visited b)) rest

/-- Apply a sequence of swaps to the abstract state. -/
def applySwaps {σ : Type _} (swapFn : σ → Nat → Nat → σ) (s : σ) :
    List (Nat × Nat) → σ
  | [] => s
  | (a, b) :: rest => applySwaps swapFn (swapFn s a b) rest

/-- The permutation-slot writes performed by a walk along the chain, closing
back at i: each chain element is overwritten with the mark of its successor,
the last with the mark of i. -/
def pairsOf (i : Nat) : List Nat → List (Nat × Nat)
  | [] => []
  | [a] => [(a, i)]
  | a :: b :: rest => (a, b) :: pairsOf i (b :: rest)

/-- The state swaps performed by a walk along the chain: each chain element
with its successor. -/
def swapsOf : List Nat → List (Nat × Nat)
  | [] => []
  | [_] => []
  | a :: b :: rest => (a, b) :: swapsOf (b :: rest)

/-- The permutation array holds the successor chain: each element of the
list maps (under `getD`) to the next, the last to i. -/
def chainOk (P : List Nat) (i : Nat) : List Nat → Prop
  | [] => True
  | [a] => P.getD a 0 = i
  | a :: b :: rest => P.getD a 0 = b ∧ chainOk P i (b :: rest)

theorem chainOk_set_notMem {P : List Nat} {i a v : Nat} :
    ∀ {l : List Nat}, a ∉ l → chainOk P i l → chainOk (P.set a v) i l
  | [], _, _ => trivial
  | [b], h, hch => by
    have hab : a ≠ b := by simpa using h
    show (P.set a v).getD b 0 = i
    rw [getD_set_ne hab]
    exact hch
  | b :: c :: rest, h, hch => by
    simp at h
    obtain ⟨hab, hrest⟩ := h
    obtain ⟨h1, h2⟩ := hch
    exact ⟨by rw [getD_set_ne hab]; exact h1,
      chainOk_set_notMem (by simp [hrest.1, hrest.2]) h2⟩

theorem cycleWalk_chain {σ : Type _} (swapFn : σ → Nat → Nat → σ) (n i : Nat) :
    ∀ (tl : List Nat) (a : Nat) (P : List Nat) (s : σ) (fuel : Nat),
      (∀ x ∈ a :: tl, x < n) →
      (a :: tl).Nodup →
      i ∉ tl →
      chainOk P i tl →
      tl.length ≤ fuel →
      cycleWalk swapFn n i fuel a (tl.headD i) P s =
        some (setPairs P (pairsOf i (a :: tl)),
          applySwaps swapFn s (swapsOf (a :: tl))) := by
  intro tl
  induction tl with
  | nil =>
    intro a P s fuel _ _ _ _ _
    cases fuel <;> simp [cycleWalk, pairsOf, swapsOf, setPairs, applySwaps]
  | cons b tl' IH =>
    intro a P s fuel hlt hnd hi hch hfuel
    have hbi : b ≠ i := by
      intro h; exact hi (h ▸ List.mem_cons_self b tl')
    have hab : a ≠ b := by
      have := hnd
      rw [List.nodup_cons] at this
      intro h; exact this.1 (h ▸ List.mem_cons_self b tl')
    have hbn : b < n := hlt b (by simp)
    obtain ⟨f, rfl⟩ : ∃ f, fuel = f + 1 := by
      cases fuel with
      | zero => simp at hfuel
      | succ f => exact ⟨f, rfl⟩
    have hgetb : P.getD b 0 = tl'.headD i := by
      cases tl' with
      | nil => exact hch
      | cons c rest => exact hch.1
    have hstep : cycleWalk swapFn n i (f + 1) a ((b :: tl').headD i) P s =
        cycleWalk swapFn n i f b ((P.set a (mark_visited b)).getD b 0)
          (P.set a (mark_visited b)) (swapFn s a b) := by
      rw [cycleWalk]
      simp [hbi, hbn]
    rw [hstep, getD_set_ne hab, hgetb]
    have hch' : chainOk P i tl' := by
      cases tl' with
      | nil => trivial
      | cons c rest => exact hch.2
    have hatl' : a ∉ tl' := by
      rw [List.nodup_cons] at hnd
      intro h; exact hnd.1 (List.mem_cons_of_mem b h)
    rw [IH b (P.set a (mark_visited b)) (swapFn s a b) f
      (fun x hx => hlt x (List.mem_cons_of_mem a hx))
      (List.nodup_cons.mp hnd).2
      (fun h => hi (List.mem_cons_of_mem b h))
      (chainOk_set_notMem hatl' hch')
      (Nat.le_of_succ_le_succ hfuel)]
    cases tl' with
    | nil => simp [pairsOf, swapsOf, setPairs, applySwaps]
    | cons c rest => simp [pairsOf, swapsOf, setPairs, applySwaps]

theorem setPairs_length :
    ∀ (L : List (Nat × Nat)) (P : List Nat), (setPairs P L).length = P.length
  | [], _ => rfl
  | (a, b) :: rest, P => by
    rw [setPairs, setPairs_length rest]
    simp

theorem getD_setPairs_notMem :
    ∀ (L : List (Nat × Nat)) (P : List Nat) (k : Nat),
      k ∉ L.map Prod.fst → (setPairs P L).getD k 0 = P.getD k 0
  | [], _, _, _ => rfl
  | (a, b) :: rest, P, k, h => by
    simp at h
    rw [setPairs, getD_setPairs_notMem rest _ k (by simpa using h.2),
      getD_set_ne (Ne.symm h.1)]

theorem getD_setPairs_range :
    ∀ (L : Nat) (d e : Nat → Nat) (P : List Nat),
      (∀ t, t < L → d t < P.length) →
      (∀ t1 t2, t1 < L → t2 < L → d t1 = d t2 → t1 = t2) →
      ∀ t, t < L →
        (setPairs P ((List.range L).map (fun t => (d t, e t)))).getD (d t) 0 =
          mark_visited (e t) := by
  intro L
  induction L with
  | zero => intro d e P _ _ t ht; omega
  | succ L IH =>
    intro d e P hb hinj t ht
    rw [List.range_succ_eq_map, List.map_cons, List.map_map]
    rw [show (setPairs P
        ((d 0, e 0) :: List.map ((fun t => (d t, e t)) ∘ Nat.succ) (List.range L)))
      = setPairs (P.set (d 0) (mark_visited (e 0)))
        (List.map (fun t => (d (t + 1), e (t + 1))) (List.range L)) from rfl]
    match t with
    | 0 =>
      rw [getD_setPairs_notMem]
      · exact getD_set_self (hb 0 ht)
      · rw [List.map_map]
        simp only [List.mem_map, Function.comp]
        rintro ⟨x, hx, hdx⟩
        have := hinj (x + 1) 0 (by simp at hx; omega) ht hdx
        omega
    | t + 1 =>
      exact IH (fun u => d (u + 1)) (fun u => e (u + 1)) _
        (fun u hu => by simpa using hb (u + 1) (by omega))
        (fun u1 u2 h1 h2 he => by
          have := hinj (u1 + 1) (u2 + 1) (by omega) (by omega) he
          omega)
        t (by omega)

theorem applySwaps_listSwap_length {α : Type _} :
    ∀ (L : List (Nat × Nat)) (s : List α),
      (applySwaps listSwap s L).length = s.length
  | [], _ => rfl
  | (a, b) :: rest, s => by
    rw [applySwaps, applySwaps_listSwap_length rest, listSwap_length]

theorem getD_applySwaps_notMem {α : Type _} (dflt : α) :
    ∀ (L : List (Nat × Nat)) (s : List α) (k : Nat),
      (∀ ab ∈ L, k ≠ ab.1 ∧ k ≠ ab.2) →
      (applySwaps listSwap s L).getD k dflt = s.getD k dflt
  | [], _, _, _ => rfl
  | (a, b) :: rest, s, k, h => by
    rw [applySwaps, getD_applySwaps_notMem dflt rest _ k
      (fun ab hab => h ab (List.mem_cons_of_mem _ hab))]
    exact getD_listSwap_other s dflt (h (a, b) (by simp)).1 (h (a, b) (by simp)).2

/-- Effect of the swap sequence along a cycle: the state values rotate one
step backwards along the cycle (each slot receives its successor's value, the
last receives the first's), everything else untouched. -/
theorem getD_applySwaps_rotate {α : Type _} (dflt : α) :
    ∀ (L : Nat) (d : Nat → Nat) (s : List α),
      (∀ t, t ≤ L → d t < s.length) →
      (∀ t1 t2, t1 ≤ L → t2 ≤ L → d t1 = d t2 → t1 = t2) →
      (∀ t, t < L →
        (applySwaps listSwap s
          ((List.range L).map (fun t => (d t, d (t + 1))))).getD (d t) dflt =
            s.getD (d (t + 1)) dflt) ∧
      (applySwaps listSwap s
        ((List.range L).map (fun t => (d t, d (t + 1))))).getD (d L) dflt =
          s.getD (d 0) dflt := by
  intro L
  induction L with
  | zero => exact fun d s _ _ => ⟨fun t ht => by omega, rfl⟩
  | succ L IH =>
    intro d s hb hinj
    rw [List.range_succ_eq_map, List.map_cons, List.map_map]
    have hrw : (applySwaps listSwap s
        ((d 0, d 1) :: List.map ((fun t => (d t, d (t + 1))) ∘ Nat.succ) (List.range L)))
      = applySwaps listSwap (listSwap s (d 0) (d 1))
        (List.map (fun t => (d (t + 1), d (t + 2))) (List.range L)) := rfl
    rw [hrw]
    have h01 : d 0 ≠ d 1 := fun h => by have := hinj 0 1 (by omega) (by omega) h; omega
    have hb' : ∀ t, t ≤ L → d (t + 1) < (listSwap s (d 0) (d 1)).length := by
      intro t ht
      rw [listSwap_length]
      exact hb (t + 1) (by omega)
    have hinj' : ∀ t1 t2, t1 ≤ L → t2 ≤ L → d (t1 + 1) = d (t2 + 1) → t1 = t2 := by
      intro t1 t2 h1 h2 he
      have := hinj (t1 + 1) (t2 + 1) (by omega) (by omega) he
      omega
    obtain ⟨IHa, IHb⟩ := IH (fun t => d (t + 1)) (listSwap s (d 0) (d 1)) hb' hinj'
    refine ⟨?_, ?_⟩
    · intro t ht
      match t with
      | 0 =>
        rw [getD_applySwaps_notMem]
        · exact getD_listSwap_fst s dflt (hb 0 (by omega)) (hb 1 (by omega)) h01
        · intro ab hab
          simp only [List.mem_map] at hab
          obtain ⟨x, hx, rfl⟩ := hab
          simp only [List.mem_range] at hx
          constructor
          · intro h; have := hinj 0 (x + 1) (by omega) (by omega) h; omega
          · intro h; have := hinj 0 (x + 2) (by omega) (by omega) h; omega
      | t + 1 =>
        rw [IHa t (by omega)]
        exact getD_listSwap_other s dflt
          (fun h => by have := hinj (t + 2) 0 (by omega) (by omega) h; omega)
          (fun h => by have := hinj (t + 2) 1 (by omega) (by omega) h; omega)
    · rw [IHb]
      exact getD_listSwap_snd s dflt (hb 0 (by omega)) (hb 1 (by omega))

theorem pairsOf_map (i : Nat) (d : Nat → Nat) :
    ∀ (L a : Nat), d (a + L) = i →
      pairsOf i ((List.range' a L).map d) =
        (List.range' a L).map (fun t => (d t, d (t + 1))) := by
  intro L
  induction L with
  | zero => intro a _; rfl
  | succ L IH =>
    intro a hi
    cases L with
    | zero =>
      have h1 : d (a + 1) = i := hi
      simp [List.range'_succ, pairsOf, h1]
    | succ L' =>
      have e1 : List.range' a (L' + 1 + 1) = a :: List.range' (a + 1) (L' + 1) :=
        List.range'_succ a (L' + 1) 1
      have e2 : List.range' (a + 1) (L' + 1) = (a + 1) :: List.range' (a + 1 + 1) L' :=
        List.range'_succ (a + 1) L' 1
      have hIH := IH (a + 1) (by rw [← hi]; ring_nf)
      rw [e2, List.map_cons] at hIH
      rw [e1, List.map_cons, e2, List.map_cons, pairsOf, hIH]
      simp

theorem swapsOf_map (d : Nat → Nat) :
    ∀ (L a : Nat),
      swapsOf ((List.range' a (L + 1)).map d) =
        (List.range' a L).map (fun t => (d t, d (t + 1))) := by
  intro L
  induction L with
  | zero => intro a; rfl
  | succ L IH =>
    intro a
    have e1 : List.range' a (L + 1 + 1) = a :: List.range' (a + 1) (L + 1) :=
      List.range'_succ a (L + 1) 1
    have e2 : List.range' (a + 1) (L + 1) = (a + 1) :: List.range' (a + 1 + 1) L :=
      List.range'_succ (a + 1) L 1
    have e3 : List.range' a (L + 1) = a :: List.range' (a + 1) L :=
      List.range'_succ a L 1
    have hIH := IH (a + 1)
    rw [e2, List.map_cons] at hIH
    rw [e1, List.map_cons, e2, List.map_cons, swapsOf, hIH, e3, List.map_cons]

/-! Orbit structure of a valid permutation's successor function. -/

theorem iterate_lt {p : List Nat} {n : Nat} (hp : p.length = n)
    (hlt : ∀ x ∈ p, x < n) :
    ∀ (t i : Nat), i < n → (fun k => p.getD k 0)^[t] i < n := by
  intro t
  induction t with
  | zero => intro i hi; simpa using hi
  | succ t IH =>
    intro i hi
    rw [Function.iterate_succ_apply']
    have h1 := IH i hi
    refine hlt _ ?_
    rw [List.getD_eq_getElem p 0 (by omega : (fun k => p.getD k 0)^[t] i < p.length)]
    exact List.getElem_mem _

theorem getD_inj {p : List Nat} {n : Nat} (hp : p.length = n) (hnd : p.Nodup) :
    ∀ a b, a < n → b < n → p.getD a 0 = p.getD b 0 → a = b := by
  intro a b ha hb he
  rw [List.getD_eq_getElem p 0 (by omega : a < p.length),
    List.getD_eq_getElem p 0 (by omega : b < p.length)] at he
  exact (List.Nodup.getElem_inj_iff hnd).mp he

theorem iterate_inj {p : List Nat} {n : Nat} (hp : p.length = n)
    (hlt : ∀ x ∈ p, x < n) (hnd : p.Nodup) :
    ∀ t a b, a < n → b < n →
      (fun k => p.getD k 0)^[t] a = (fun k => p.getD k 0)^[t] b → a = b := by
  intro t
  induction t with
  | zero => intro a b _ _ h; simpa using h
  | succ t IH =>
    intro a b ha hb he
    rw [Function.iterate_succ_apply', Function.iterate_succ_apply'] at he
    exact IH a b ha hb (getD_inj hp hnd _ _
      (iterate_lt hp hlt t a ha) (iterate_lt hp hlt t b hb) he)

theorem exists_period {p : List Nat} {n : Nat} (hp : p.length = n)
    (hlt : ∀ x ∈ p, x < n) (hnd : p.Nodup) {i : Nat} (hi : i < n) :
    ∃ m, (0 < m ∧ (fun k => p.getD k 0)^[m] i = i) ∧ m ≤ n := by
  obtain ⟨t1, ht1, t2, ht2, hne, he⟩ :=
    Finset.exists_ne_map_eq_of_card_lt_of_maps_to
      (s := Finset.range (n + 1)) (t := Finset.range n)
      (by simp)
      (f := fun t => (fun k => p.getD k 0)^[t] i)
      (fun t _ => Finset.mem_range.mpr (iterate_lt hp hlt t i hi))
  simp only [Finset.mem_range] at ht1 ht2
  have key : ∀ u v, u < v → v ≤ n →
      (fun k => p.getD k 0)^[u] i = (fun k => p.getD k 0)^[v] i →
      ∃ m, (0 < m ∧ (fun k => p.getD k 0)^[m] i = i) ∧ m ≤ n := by
    intro u v huv hvn heq
    have hsplit : (fun k => p.getD k 0)^[v] i =
        (fun k => p.getD k 0)^[u] ((fun k => p.getD k 0)^[v - u] i) := by
      rw [← Function.iterate_add_apply]
      congr 1
      omega
    rw [hsplit] at heq
    have := iterate_inj hp hlt hnd u i _ hi
      (iterate_lt hp hlt (v - u) i hi) heq
    exact ⟨v - u, ⟨by omega, this.symm⟩, by omega⟩
  rcases Nat.lt_or_ge t1 t2 with h | h
  · exact key t1 t2 h (by omega) he
  · exact key t2 t1 (by omega) (by omega) he.symm

theorem chainOk_map (P : List Nat) (i : Nat) (d : Nat → Nat) :
    ∀ (L a : Nat), (∀ t, a ≤ t → t < a + L → P.getD (d t) 0 = d (t + 1)) →
      d (a + L) = i → chainOk P i ((List.range' a L).map d) := by
  intro L
  induction L with
  | zero => intro a _ _; trivial
  | succ L IH =>
    intro a h hi
    cases L with
    | zero =>
      show chainOk P i [d a]
      show P.getD (d a) 0 = i
      rw [h a (by omega) (by omega)]
      exact hi
    | succ L' =>
      have e2 : List.range' (a + 1) (L' + 1) = (a + 1) :: List.range' (a + 1 + 1) L' :=
        List.range'_succ (a + 1) L' 1
      rw [List.range'_succ a (L' + 1) 1, List.map_cons, e2, List.map_cons]
      refine ⟨h a (by omega) (by omega), ?_⟩
      have := IH (a + 1) (fun t h1 h2 => h t (by omega) (by omega))
        (by rw [← hi]; ring_nf)
      rw [e2, List.map_cons] at this
      exact this

/-- Invariant of the outer loop of the cycle-following pass: every slot is
either resolved (its permutation slot marked and its state slot holding the
original value from its target position) or untouched, and the visited set is
closed under preimages of the permutation. -/
def MasterInv {α : Type _} (n : Nat) (p₀ : List Nat) (s₀ : List α)
    (P : List Nat) (S : List α) : Prop :=
  P.length = n ∧ S.length = n ∧
  (∀ k, k < n →
    (P.getD k 0 = mark_visited (p₀.getD k 0) ∧
      ∀ d, S.getD k d = s₀.getD (p₀.getD k 0) d) ∨
    (P.getD k 0 = p₀.getD k 0 ∧ ∀ d, S.getD k d = s₀.getD k d)) ∧
  (∀ k, k < n → is_visited (P.getD (p₀.getD k 0) 0) = true →
    is_visited (P.getD k 0) = true)

/-- Every position of a valid permutation lies on a finite cycle: there is an
orbit map d (the iterated successor) of some minimal period m through i, with
distinct elements, staying in range, following the permutation. -/
theorem orbit_exists {p₀ : List Nat} {n : Nat} (hp : p₀.length = n)
    (hlt : ∀ x ∈ p₀, x < n) (hnd : p₀.Nodup) {i : Nat} (hi : i < n) :
    ∃ (m : Nat) (d : Nat → Nat),
      0 < m ∧ m ≤ n ∧ d 0 = i ∧ d m = i ∧
      (∀ t, d t < n) ∧
      (∀ t, p₀.getD (d t) 0 = d (t + 1)) ∧
      (∀ t1 t2, t1 < m → t2 < m → d t1 = d t2 → t1 = t2) := by
  have hQ := exists_period hp hlt hnd hi
  have hQ' : ∃ m, 0 < m ∧ (fun k => p₀.getD k 0)^[m] i = i :=
    ⟨hQ.choose, hQ.choose_spec.1⟩
  refine ⟨Nat.find hQ', fun t => (fun k => p₀.getD k 0)^[t] i,
    (Nat.find_spec hQ').1, ?_, by simp, (Nat.find_spec hQ').2,
    fun t => iterate_lt hp hlt t i hi,
    fun t => (Function.iterate_succ_apply' (fun k => p₀.getD k 0) t i).symm, ?_⟩
  · exact le_trans (Nat.find_min' hQ' hQ.choose_spec.1) hQ.choose_spec.2
  · have key : ∀ t1 t2, t1 < t2 → t2 < Nat.find hQ' →
        (fun k => p₀.getD k 0)^[t1] i ≠ (fun k => p₀.getD k 0)^[t2] i := by
      intro t1 t2 h12 h2m heq
      have hsplit : (fun k => p₀.getD k 0)^[t2] i =
          (fun k => p₀.getD k 0)^[t1] ((fun k => p₀.getD k 0)^[t2 - t1] i) := by
        rw [← Function.iterate_add_apply]
        congr 1
        omega
      rw [hsplit] at heq
      have := iterate_inj hp hlt hnd t1 i _ hi
        (iterate_lt hp hlt (t2 - t1) i hi) heq
      have hne := Nat.find_min hQ' (by omega : t2 - t1 < Nat.find hQ')
      rw [not_and_or] at hne
      rcases hne with h | h
      · omega
      · exact h this.symm
    intro t1 t2 h1 h2 heq
    rcases Nat.lt_trichotomy t1 t2 with h | h | h
    · exact absurd heq (key t1 t2 h h2)
    · exact h
    · exact absurd heq.symm (key t2 t1 h h1)

theorem applyPermOuter_master {α : Type _} {n : Nat} {p₀ : List Nat} {s₀ : List α}
    (hp : p₀.length = n) (hlt : ∀ x ∈ p₀, x < n) (hnd : p₀.Nodup)
    (hmark : n ≤ MARK) :
    ∀ (todo : List Nat) (P : List Nat) (S : List α),
      (∀ x ∈ todo, x < n) →
      MasterInv n p₀ s₀ P S →
      ∃ P' S', applyPermOuter listSwap n todo P S = some (P', S') ∧
        MasterInv n p₀ s₀ P' S' ∧
        (∀ k, is_visited (P.getD k 0) = true → is_visited (P'.getD k 0) = true) ∧
        (∀ k ∈ todo, is_visited (P'.getD k 0) = true) := by
  intro todo
  induction todo with
  | nil =>
    intro P S _ hinv
    exact ⟨P, S, rfl, hinv, fun k h => h, by simp⟩
  | cons i rest IH =>
    intro P S htodo hinv
    have hi : i < n := htodo i (by simp)
    obtain ⟨hPlen, hSlen, hpt, hclo⟩ := hinv
    have hpflt : ∀ k, k < n → p₀.getD k 0 < n := by
      intro k hk
      refine hlt _ ?_
      rw [List.getD_eq_getElem p₀ 0 (by omega : k < p₀.length)]
      exact List.getElem_mem _
    by_cases hvis : is_visited (P.getD i 0) = true
    · rw [show applyPermOuter listSwap n (i :: rest) P S
          = applyPermOuter listSwap n rest P S by
        rw [applyPermOuter, if_pos hvis]]
      obtain ⟨P', S', hrun, hinv', hmono, hall⟩ :=
        IH P S (fun x hx => htodo x (List.mem_cons_of_mem i hx))
          ⟨hPlen, hSlen, hpt, hclo⟩
      refine ⟨P', S', hrun, hinv', hmono, ?_⟩
      intro k hk
      rcases List.mem_cons.mp hk with rfl | hk
      · exact hmono k hvis
      · exact hall k hk
    · -- walk the cycle of i
      obtain ⟨m, d, hm0, hmn, hd0, hdm, hdlt, hdsucc, hdinj⟩ :=
        orbit_exists hp hlt hnd hi
      -- the whole orbit of i is unvisited
      have horb : ∀ t, t < m → is_visited (P.getD (d t) 0) = false := by
        intro t
        induction t with
        | zero =>
          intro _
          rw [hd0]
          exact Bool.not_eq_true _ ▸ eq_false_of_ne_true hvis
        | succ t IHt =>
          intro htm
          by_contra hcon
          have hvt := Bool.of_not_eq_false hcon
          have := hclo (d t) (hdlt t) (by rw [hdsucc t]; exact hvt)
          rw [IHt (by omega)] at this
          exact Bool.false_ne_true this
      -- orbit slots still hold the original permutation
      have hPorb : ∀ t, t < m → P.getD (d t) 0 = d (t + 1) := by
        intro t htm
        rcases hpt (d t) (hdlt t) with ⟨h1, _⟩ | ⟨h1, _⟩
        · exfalso
          have : is_visited (P.getD (d t) 0) = true := by
            rw [h1]
            exact is_visited_mark_visited _ (lt_of_lt_of_le (hpflt _ (hdlt t)) hmark)
          rw [horb t htm] at this
          exact Bool.false_ne_true this
        · rw [h1]
          exact hdsucc t
      have hSorb : ∀ t, t < m → ∀ dd, S.getD (d t) dd = s₀.getD (d t) dd := by
        intro t htm dd
        rcases hpt (d t) (hdlt t) with ⟨h1, _⟩ | ⟨_, h2⟩
        · exfalso
          have : is_visited (P.getD (d t) 0) = true := by
            rw [h1]
            exact is_visited_mark_visited _ (lt_of_lt_of_le (hpflt _ (hdlt t)) hmark)
          rw [horb t htm] at this
          exact Bool.false_ne_true this
        · exact h2 dd
      -- set up the chain for the walk lemma
      set tl : List Nat := (List.range' 1 (m - 1)).map d with htl
      have hch : (List.range' 0 m).map d = i :: tl := by
        rw [htl, show m = (m - 1) + 1 by omega, List.range'_succ 0 (m - 1) 1,
          List.map_cons, hd0]
        norm_num
      have hmemtl : ∀ x ∈ tl, ∃ t, 1 ≤ t ∧ t < m ∧ d t = x := by
        intro x hx
        rw [htl] at hx
        obtain ⟨t, ht, rfl⟩ := List.mem_map.mp hx
        rw [List.mem_range'_1] at ht
        exact ⟨t, ht.1, by omega, rfl⟩
      have hitl : i ∉ tl := by
        intro hmem
        obtain ⟨t, ht1, htm, hdt⟩ := hmemtl i hmem
        have := hdinj t 0 htm (by omega) (by rw [hd0, hdt])
        omega
      have hndch : (i :: tl).Nodup := by
        rw [← hch]
        refine List.Nodup.map_on ?_ (List.nodup_range' 0 m)
        intro x hx y hy hxy
        rw [List.mem_range'_1] at hx hy
        exact hdinj x y (by omega) (by omega) hxy
      have hltch : ∀ x ∈ i :: tl, x < n := by
        intro x hx
        rcases List.mem_cons.mp hx with rfl | hx
        · exact hi
        · obtain ⟨t, _, _, rfl⟩ := hmemtl x hx
          exact hdlt t
      have hchain : chainOk P i tl := by
        rw [htl]
        refine chainOk_map P i d (m - 1) 1 ?_ ?_
        · intro t h1 h2
          exact hPorb t (by omega)
        · rw [show 1 + (m - 1) = m by omega]
          exact hdm
      have hhead : P.getD i 0 = tl.headD i := by
        rw [htl]
        rcases Nat.lt_or_ge 1 m with h | h
        · rw [show m - 1 = (m - 2) + 1 by omega, List.range'_succ 1 (m - 2) 1,
            List.map_cons]
          show P.getD i 0 = d 1
          rw [← hd0]
          exact hPorb 0 hm0
        · have hm1 : m = 1 := by omega
          rw [show m - 1 = 0 by omega]
          show P.getD i 0 = i
          have h1 : P.getD i 0 = d 1 := by rw [← hd0]; exact hPorb 0 hm0
          have h2 : d 1 = i := by rw [← hm1]; exact hdm
          rw [h1, h2]
      have hwalk := cycleWalk_chain listSwap n i tl i P S n hltch hndch hitl hchain
        (by
          have : tl.length = m - 1 := by rw [htl]; simp
          omega)
      rw [← hhead] at hwalk
      set P1 : List Nat := setPairs P (pairsOf i (i :: tl)) with hP1
      set S1 : List α := applySwaps listSwap S (swapsOf (i :: tl)) with hS1
      have hstep : applyPermOuter listSwap n (i :: rest) P S
          = applyPermOuter listSwap n rest P1 S1 := by
        rw [applyPermOuter]
        simp only [hvis]
        rw [if_neg (by simp [hvis]), hwalk]
      -- pointwise facts about P1
      have hpairs : pairsOf i (i :: tl) =
          (List.range m).map (fun t => (d t, d (t + 1))) := by
        rw [← hch, List.range_eq_range']
        exact pairsOf_map i d m 0 (by simpa using hdm)
      have hswaps : swapsOf (i :: tl) =
          (List.range (m - 1)).map (fun t => (d t, d (t + 1))) := by
        rw [← hch, List.range_eq_range', show m = (m - 1) + 1 by omega]
        exact swapsOf_map d (m - 1) 0
      have hP1len : P1.length = n := by
        rw [hP1, setPairs_length]
        exact hPlen
      have hS1len : S1.length = n := by
        rw [hS1, applySwaps_listSwap_length]
        exact hSlen
      have hP1orb : ∀ t, t < m → P1.getD (d t) 0 = mark_visited (d (t + 1)) := by
        intro t htm
        rw [hP1, hpairs]
        exact getD_setPairs_range m d (fun t => d (t + 1)) P
          (fun u hu => by rw [hPlen]; exact hdlt u)
          (fun u1 u2 h1 h2 => hdinj u1 u2 h1 h2) t htm
      have hP1out : ∀ k, (∀ t, t < m → k ≠ d t) → P1.getD k 0 = P.getD k 0 := by
        intro k hk
        rw [hP1, hpairs]
        refine getD_setPairs_notMem _ P k ?_
        rw [List.map_map]
        simp only [List.mem_map, Function.comp]
        rintro ⟨t, ht, hdt⟩
        rw [List.mem_range] at ht
        exact hk t ht hdt.symm
      have hrot := getD_applySwaps_rotate (L := m - 1) (d := d) (s := S)
      have hS1a : ∀ dd : α, ∀ t, t < m - 1 → S1.getD (d t) dd = S.getD (d (t + 1)) dd := by
        intro dd t htm
        rw [hS1, hswaps]
        exact ((hrot dd (fun u hu => by rw [hSlen]; exact hdlt u)
          (fun u1 u2 h1 h2 => hdinj u1 u2 (by omega) (by omega))).1) t htm
      have hS1b : ∀ dd : α, S1.getD (d (m - 1)) dd = S.getD (d 0) dd := by
        intro dd
        rw [hS1, hswaps]
        exact (hrot dd (fun u hu => by rw [hSlen]; exact hdlt u)
          (fun u1 u2 h1 h2 => hdinj u1 u2 (by omega) (by omega))).2
      have hS1out : ∀ k, (∀ t, t < m → k ≠ d t) →
          ∀ dd : α, S1.getD k dd = S.getD k dd := by
        intro k hk dd
        rw [hS1, hswaps]
        refine getD_applySwaps_notMem dd _ S k ?_
        intro ab hab
        obtain ⟨t, ht, rfl⟩ := List.mem_map.mp hab
        rw [List.mem_range] at ht
        constructor
        · exact hk t (by omega)
        · rcases Nat.lt_or_ge (t + 1) m with h | h
          · exact hk (t + 1) h
          · have : t + 1 = m := by omega
            rw [this, hdm, ← hd0]
            exact hk 0 (by omega)
      -- re-establish the invariant
      have hinv1 : MasterInv n p₀ s₀ P1 S1 := by
        refine ⟨hP1len, hS1len, ?_, ?_⟩
        · intro k hk
          by_cases horbk : ∃ t, t < m ∧ d t = k
          · obtain ⟨t, htm, rfl⟩ := horbk
            left
            constructor
            · rw [hP1orb t htm, hdsucc]
            · intro dd
              rcases Nat.lt_or_ge t (m - 1) with h | h
              · rw [hS1a dd t h, hSorb (t + 1) (by omega) dd, ← hdsucc]
              · have htm1 : t = m - 1 := by omega
                have hlast : p₀.getD (d (m - 1)) 0 = i := by
                  rw [hdsucc (m - 1), show m - 1 + 1 = m by omega]
                  exact hdm
                rw [htm1, hS1b dd, hSorb 0 (by omega) dd, hd0, hlast]
          · push_neg at horbk
            have hPk := hP1out k (fun t ht he => horbk t ht he.symm)
            have hSk := hS1out k (fun t ht he => horbk t ht he.symm)
            rcases hpt k hk with ⟨h1, h2⟩ | ⟨h1, h2⟩
            · left
              exact ⟨by rw [hPk, h1], fun dd => by rw [hSk dd, h2 dd]⟩
            · right
              exact ⟨by rw [hPk, h1], fun dd => by rw [hSk dd, h2 dd]⟩
        · intro k hk hv
          by_cases horbk : ∃ t, t < m ∧ d t = k
          · obtain ⟨t, htm, rfl⟩ := horbk
            rw [hP1orb t htm]
            exact is_visited_mark_visited _ (lt_of_lt_of_le (hdlt (t + 1)) hmark)
          · push_neg at horbk
            have hPk := hP1out k (fun t ht he => horbk t ht he.symm)
            rw [hPk]
            have hpfk : ∀ t, t < m → p₀.getD k 0 ≠ d t := by
              intro t htm he
              match t, htm with
              | 0, _ =>
                have hlast : p₀.getD (d (m - 1)) 0 = i := by
                  rw [hdsucc (m - 1), show m - 1 + 1 = m by omega]
                  exact hdm
                have he' : p₀.getD k 0 = p₀.getD (d (m - 1)) 0 := by
                  rw [he, hd0, hlast]
                have := getD_inj hp hnd k (d (m - 1)) hk (hdlt (m - 1)) he'
                exact horbk (m - 1) (by omega) this.symm
              | t + 1, htm =>
                have he' : p₀.getD k 0 = p₀.getD (d t) 0 := by
                  rw [he, ← hdsucc t]
                have := getD_inj hp hnd k (d t) hk (hdlt t) he'
                exact horbk t (by omega) this.symm
            have hPpfk := hP1out (p₀.getD k 0) hpfk
            rw [hPpfk] at hv
            exact hclo k hk hv
      have hmono1 : ∀ k, is_visited (P.getD k 0) = true →
          is_visited (P1.getD k 0) = true := by
        intro k hv
        by_cases horbk : ∃ t, t < m ∧ d t = k
        · obtain ⟨t, htm, rfl⟩ := horbk
          rw [hP1orb t htm]
          exact is_visited_mark_visited _ (lt_of_lt_of_le (hdlt (t + 1)) hmark)
        · push_neg at horbk
          rw [hP1out k (fun t ht he => horbk t ht he.symm)]
          exact hv
      obtain ⟨P', S', hrun, hinv', hmono, hall⟩ :=
        IH P1 S1 (fun x hx => htodo x (List.mem_cons_of_mem i hx)) hinv1
      refine ⟨P', S', by rw [hstep]; exact hrun, hinv', ?_, ?_⟩
      · intro k hv
        exact hmono k (hmono1 k hv)
      · intro k hk
        rcases List.mem_cons.mp hk with rfl | hk
        · refine hmono k ?_
          rw [← hd0, hP1orb 0 hm0]
          exact is_visited_mark_visited _ (lt_of_lt_of_le (hdlt 1) hmark)
        · exact hall k hk

/-- Correctness of the cycle-following pass on a list state: for a valid
permutation it succeeds, the final permutation array is the markwise image of
the original, and the final state is the original rearranged so that position
k holds the original value at position p₀[k]. -/
theorem applyPermFull_list {α : Type _} {n : Nat} {p₀ : List Nat} {s₀ : List α}
    (hp : p₀.length = n) (hlt : ∀ x ∈ p₀, x < n) (hnd : p₀.Nodup)
    (hmark : n ≤ MARK) (hs₀ : s₀.length = n) :
    ∃ P' S', applyPermFull listSwap n p₀ s₀ = some (P', S') ∧
      P'.length = n ∧ S'.length = n ∧
      (∀ k, k < n → P'.getD k 0 = mark_visited (p₀.getD k 0)) ∧
      (∀ k, k < n → ∀ d, S'.getD k d = s₀.getD (p₀.getD k 0) d) := by
  have hpflt : ∀ k, k < n → p₀.getD k 0 < n := by
    intro k hk
    refine hlt _ ?_
    rw [List.getD_eq_getElem p₀ 0 (by omega : k < p₀.length)]
    exact List.getElem_mem _
  have hinv0 : MasterInv n p₀ s₀ p₀ s₀ := by
    refine ⟨hp, hs₀, fun k hk => Or.inr ⟨rfl, fun d => rfl⟩, ?_⟩
    intro k hk hv
    exfalso
    have h1 : p₀.getD (p₀.getD k 0) 0 < MARK :=
      lt_of_lt_of_le (hpflt _ (hpflt _ hk)) hmark
    rw [is_visited_of_lt _ h1] at hv
    exact Bool.false_ne_true hv
  obtain ⟨P', S', hrun, hinv', _, hall⟩ :=
    applyPermOuter_master hp hlt hnd hmark (List.range n) p₀ s₀
      (fun x hx => List.mem_range.mp hx) hinv0
  obtain ⟨hPl, hSl, hpt, _⟩ := hinv'
  refine ⟨P', S', hrun, hPl, hSl, ?_, ?_⟩
  · intro k hk
    rcases hpt k hk with ⟨h1, _⟩ | ⟨h1, _⟩
    · exact h1
    · exfalso
      have hv := hall k (List.mem_range.mpr hk)
      rw [h1, is_visited_of_lt _ (lt_of_lt_of_le (hpflt _ hk) hmark)] at hv
      exact Bool.false_ne_true hv
  · intro k hk
    rcases hpt k hk with ⟨_, h2⟩ | ⟨h1, _⟩
    · exact h2
    · exfalso
      have hv := hall k (List.mem_range.mpr hk)
      rw [h1, is_visited_of_lt _ (lt_of_lt_of_le (hpflt _ hk) hmark)] at hv
      exact Bool.false_ne_true hv

/-- Equational form of the list-level correctness: the pass returns exactly
the marked permutation and the rearranged list. -/
theorem applyPermFull_list_eq {α : Type _} {n : Nat} {p₀ : List Nat}
    {s₀ : List α} (dflt : α)
    (hp : p₀.length = n) (hlt : ∀ x ∈ p₀, x < n) (hnd : p₀.Nodup)
    (hmark : n ≤ MARK) (hs₀ : s₀.length = n) :
    applyPermFull listSwap n p₀ s₀ =
      some (p₀.map mark_visited, p₀.map (fun j => s₀.getD j dflt)) := by
  obtain ⟨P', S', hrun, hPl, hSl, hPk, hSk⟩ :=
    applyPermFull_list hp hlt hnd hmark hs₀
  rw [hrun]
  have e1 : P' = p₀.map mark_visited := by
    refine List.ext_getElem (by simp [hPl, hp]) ?_
    intro k h1 h2
    rw [← List.getD_eq_getElem P' 0 h1]
    rw [hPk k (by omega : k < n)]
    rw [List.getElem_map]
    rw [List.getD_eq_getElem p₀ 0 (by simp at h2; omega : k < p₀.length)]
  have e2 : S' = p₀.map (fun j => s₀.getD j dflt) := by
    refine List.ext_getElem (by simp [hSl, hp]) ?_
    intro k h1 h2
    rw [← List.getD_eq_getElem S' dflt h1]
    rw [hSk k (by rw [hSl] at h1; exact h1 : k < n) dflt]
    rw [List.getElem_map]
    rw [List.getD_eq_getElem p₀ 0 (by simp at h2; omega : k < p₀.length)]
  rw [e1, e2]

/-! Simulation: the pass's control flow depends only on the permutation
array, so a run on one state type projects to a run on another along any
swap-commuting map.  This lifts the list-level correctness to the Matrix
with its bundle of parallel arrays. -/

theorem cycleWalk_sim {σ τ : Type _} (f : σ → τ)
    (swapS : σ → Nat → Nat → σ) (swapT : τ → Nat → Nat → τ)
    (hf : ∀ s a b, f (swapS s a b) = swapT (f s) a b) (n i : Nat) :
    ∀ (fuel j jIdx : Nat) (p : List Nat) (s : σ),
      cycleWalk swapT n i fuel j jIdx p (f s) =
        (cycleWalk swapS n i fuel j jIdx p s).map (fun r => (r.1, f r.2)) := by
  intro fuel
  induction fuel with
  | zero =>
    intro j jIdx p s
    rw [cycleWalk, cycleWalk]
    by_cases h : jIdx = i <;> simp [h]
  | succ fuel IH =>
    intro j jIdx p s
    rw [cycleWalk, cycleWalk]
    by_cases h : jIdx = i
    · simp [h]
    · simp only [h, if_false]
      by_cases h2 : jIdx < n
      · simp only [h2, if_true]
        rw [← hf]
        exact IH jIdx _ _ (swapS s j jIdx)
      · simp [h2]

theorem applyPermOuter_sim {σ τ : Type _} (f : σ → τ)
    (swapS : σ → Nat → Nat → σ) (swapT : τ → Nat → Nat → τ)
    (hf : ∀ s a b, f (swapS s a b) = swapT (f s) a b) (n : Nat) :
    ∀ (todo p : List Nat) (s : σ),
      applyPermOuter swapT n todo p (f s) =
        (applyPermOuter swapS n todo p s).map (fun r => (r.1, f r.2)) := by
  intro todo
  induction todo with
  | nil => intro p s; rfl
  | cons i rest IH =>
    intro p s
    rw [applyPermOuter, applyPermOuter]
    by_cases h : is_visited (p.getD i 0) = true
    · rw [if_pos h, if_pos h]
      exact IH p s
    · rw [if_neg h, if_neg h]
      rw [cycleWalk_sim f swapS swapT hf n i n i (p.getD i 0) p s]
      cases hc : cycleWalk swapS n i n i (p.getD i 0) p s with
      | none => rfl
      | some r =>
        rw [Option.map_some']
        exact IH r.1 r.2

theorem applyPermFull_sim {σ τ : Type _} (f : σ → τ)
    (swapS : σ → Nat → Nat → σ) (swapT : τ → Nat → Nat → τ)
    (hf : ∀ s a b, f (swapS s a b) = swapT (f s) a b) (n : Nat)
    (p : List Nat) (s : σ) :
    applyPermFull swapT n p (f s) =
      (applyPermFull swapS n p s).map (fun r => (r.1, f r.2)) :=
  applyPermOuter_sim f swapS swapT hf n (List.range n) p s

/-- A run whose swap never changes the state returns the state unchanged. -/
theorem cycleWalk_const {τ : Type _} (n i : Nat) :
    ∀ (fuel j jIdx : Nat) (p : List Nat) (s : τ) (r : List Nat × τ),
      cycleWalk (fun t _ _ => t) n i fuel j jIdx p s = some r → r.2 = s := by
  intro fuel
  induction fuel with
  | zero =>
    intro j jIdx p s r h
    rw [cycleWalk] at h
    by_cases hi : jIdx = i
    · rw [if_pos hi] at h
      cases h
      rfl
    · rw [if_neg hi] at h
      cases h
  | succ fuel IH =>
    intro j jIdx p s r h
    rw [cycleWalk] at h
    by_cases hi : jIdx = i
    · rw [if_pos hi] at h
      cases h
      rfl
    · rw [if_neg hi] at h
      by_cases h2 : jIdx < n
      · rw [if_pos h2] at h
        exact IH _ _ _ _ _ h
      · rw [if_neg h2] at h
        cases h

theorem applyPermOuter_const {τ : Type _} (n : Nat) :
    ∀ (todo p : List Nat) (s : τ) (r : List Nat × τ),
      applyPermOuter (fun t _ _ => t) n todo p s = some r → r.2 = s := by
  intro todo
  induction todo with
  | nil =>
    intro p s r h
    cases h
    rfl
  | cons i rest IH =>
    intro p s r h
    rw [applyPermOuter] at h
    by_cases hv : is_visited (p.getD i 0) = true
    · rw [if_pos hv] at h
      exact IH p s r h
    · rw [if_neg hv] at h
      cases hc : cycleWalk (fun t _ _ => t) n i n i (p.getD i 0) p s with
      | none => rw [hc] at h; cases h
      | some w =>
        rw [hc] at h
        have h1 := IH w.1 w.2 r h
        rw [h1]
        exact cycleWalk_const n i n i (p.getD i 0) p s w hc

/-! Lifting the correctness of the pass to the full Entry Store. -/

/-- Scalar payload of the Real variant (empty for the others). -/
def realsOf : MatrixData → List Rat
  | .real xs => xs
  | _ => []

/-- Real components of the Complex variant. -/
def reOf : MatrixData → List Rat
  | .complex xs _ => xs
  | _ => []

/-- Imaginary components of the Complex variant. -/
def imOf : MatrixData → List Rat
  | .complex _ ys => ys
  | _ => []

/-- Payload of the Integer variant. -/
def intsOf : MatrixData → List Int
  | .integer xs => xs
  | _ => []

/-- The element-type tag of a payload. -/
def tagOf : MatrixData → DataType
  | .real _ => .real
  | .complex _ _ => .complex
  | .integer _ => .integer
  | .bool => .bool

/-- The mathematical specification of applying a permutation to the Entry
Store: position k receives the entry previously at position p₀[k], across
rows, cols and every active value component. -/
def permuteSpec (m : Matrix) (p₀ : List Nat) : Matrix :=
  { rows := p₀.map (fun j => m.rows.getD j 0)
    cols := p₀.map (fun j => m.cols.getD j 0)
    vals :=
      match m.vals with
      | .real xs => .real (p₀.map (fun j => xs.getD j 0))
      | .complex xs ys => .complex (p₀.map (fun j => xs.getD j 0))
          (p₀.map (fun j => ys.getD j 0))
      | .integer xs => .integer (p₀.map (fun j => xs.getD j 0))
      | .bool => .bool
    nrows := m.nrows
    ncols := m.ncols
    nvals := m.nvals }

theorem swap_rows (m : Matrix) (a b : Nat) :
    (m.swap a b).rows = listSwap m.rows a b := rfl

theorem swap_cols (m : Matrix) (a b : Nat) :
    (m.swap a b).cols = listSwap m.cols a b := rfl

theorem swap_realsOf (m : Matrix) (a b : Nat) :
    realsOf (m.swap a b).vals = listSwap (realsOf m.vals) a b := by
  cases h : m.vals <;> simp [Matrix.swap, realsOf, h, listSwap]

theorem swap_reOf (m : Matrix) (a b : Nat) :
    reOf (m.swap a b).vals = listSwap (reOf m.vals) a b := by
  cases h : m.vals <;> simp [Matrix.swap, reOf, h, listSwap]

theorem swap_imOf (m : Matrix) (a b : Nat) :
    imOf (m.swap a b).vals = listSwap (imOf m.vals) a b := by
  cases h : m.vals <;> simp [Matrix.swap, imOf, h, listSwap]

theorem swap_intsOf (m : Matrix) (a b : Nat) :
    intsOf (m.swap a b).vals = listSwap (intsOf m.vals) a b := by
  cases h : m.vals <;> simp [Matrix.swap, intsOf, h, listSwap]

theorem swap_tagOf (m : Matrix) (a b : Nat) :
    tagOf (m.swap a b).vals = tagOf m.vals := by
  cases h : m.vals <;> simp [Matrix.swap, tagOf, h]

theorem swap_nrows (m : Matrix) (a b : Nat) : (m.swap a b).nrows = m.nrows := rfl

theorem swap_ncols (m : Matrix) (a b : Nat) : (m.swap a b).ncols = m.ncols := rfl

theorem swap_nvals (m : Matrix) (a b : Nat) : (m.swap a b).nvals = m.nvals := rfl

/-- Full correctness of `Matrix::apply_permutation` for a valid permutation
(and the final state of the consumed permutation array: every slot marked).
The cycle-following pass computes exactly the permuted store. -/
theorem applyPermutationFull_eq {m : Matrix} {p₀ : List Nat}
    (hA : InvariantA m)
    (hp : p₀.length = m.nvals) (hlt : ∀ x ∈ p₀, x < m.nvals)
    (hnd : p₀.Nodup) (hmark : m.nvals ≤ MARK) :
    m.applyPermutationFull p₀ = some (p₀.map mark_visited, permuteSpec m p₀) := by
  obtain ⟨hrl, hcl, hvl⟩ := hA
  -- project the Matrix run onto the rows component
  have hrows := applyPermFull_sim (fun mm => mm.rows) Matrix.swap listSwap
    (fun s a b => rfl) m.nvals p₀ m
  rw [applyPermFull_list_eq 0 hp hlt hnd hmark hrl] at hrows
  obtain ⟨w, hw, hw1, hwrows⟩ : ∃ w,
      applyPermFull Matrix.swap m.nvals p₀ m = some w ∧
      w.1 = p₀.map mark_visited ∧
      w.2.rows = p₀.map (fun j => m.rows.getD j 0) := by
    cases hrun : applyPermFull Matrix.swap m.nvals p₀ m with
    | none => rw [hrun] at hrows; cases hrows
    | some w =>
      rw [hrun, Option.map_some'] at hrows
      have h' := Option.some.inj hrows
      exact ⟨w, rfl, by simpa using (congrArg Prod.fst h').symm,
        by simpa using (congrArg Prod.snd h').symm⟩
  have project : ∀ {τ : Type} (f : Matrix → τ)
      (swapT : τ → Nat → Nat → τ) (tgt : τ), f m = tgt →
      (∀ s a b, f (Matrix.swap s a b) = swapT (f s) a b) →
      applyPermFull swapT m.nvals p₀ tgt = some (w.1, f w.2) := by
    intro τ f swapT tgt htgt hf
    have h := applyPermFull_sim f Matrix.swap swapT hf m.nvals p₀ m
    rw [hw, Option.map_some', htgt] at h
    exact h
  have hwcols : w.2.cols = p₀.map (fun j => m.cols.getD j 0) := by
    have h := project (fun mm => mm.cols) listSwap m.cols rfl (fun s a b => rfl)
    rw [applyPermFull_list_eq 0 hp hlt hnd hmark hcl] at h
    have h' := Option.some.inj h
    simpa using (congrArg Prod.snd h').symm
  have hwnrows : w.2.nrows = m.nrows := by
    have h := project (fun mm => mm.nrows) (fun t _ _ => t) m.nrows rfl
      (fun s a b => rfl)
    simpa using applyPermOuter_const m.nvals (List.range m.nvals) p₀ m.nrows _ h
  have hwncols : w.2.ncols = m.ncols := by
    have h := project (fun mm => mm.ncols) (fun t _ _ => t) m.ncols rfl
      (fun s a b => rfl)
    simpa using applyPermOuter_const m.nvals (List.range m.nvals) p₀ m.ncols _ h
  have hwnvals : w.2.nvals = m.nvals := by
    have h := project (fun mm => mm.nvals) (fun t _ _ => t) m.nvals rfl
      (fun s a b => rfl)
    simpa using applyPermOuter_const m.nvals (List.range m.nvals) p₀ m.nvals _ h
  have hwtag : tagOf w.2.vals = tagOf m.vals := by
    have h := project (fun mm => tagOf mm.vals) (fun t _ _ => t) (tagOf m.vals)
      rfl (fun s a b => swap_tagOf s a b)
    simpa using applyPermOuter_const m.nvals (List.range m.nvals) p₀
      (tagOf m.vals) _ h
  have hwvals : w.2.vals =
      (match m.vals with
      | .real xs => MatrixData.real (p₀.map (fun j => xs.getD j 0))
      | .complex xs ys => MatrixData.complex (p₀.map (fun j => xs.getD j 0))
          (p₀.map (fun j => ys.getD j 0))
      | .integer xs => MatrixData.integer (p₀.map (fun j => xs.getD j 0))
      | .bool => MatrixData.bool) := by
    cases hv : m.vals with
    | real xs =>
      have hvl' : xs.length = m.nvals := by rw [hv] at hvl; exact hvl
      have hwtag' : tagOf w.2.vals = DataType.real := by
        rw [hwtag, hv]; rfl
      have h := project (fun mm => realsOf mm.vals) listSwap xs
        (by show realsOf m.vals = xs; rw [hv]; rfl) (fun s a b => swap_realsOf s a b)
      rw [applyPermFull_list_eq 0 hp hlt hnd hmark hvl'] at h
      have hre : List.map (fun j => xs.getD j 0) p₀ = realsOf w.2.vals := by
        simpa using congrArg Prod.snd (Option.some.inj h)
      show w.2.vals = MatrixData.real (List.map (fun j => xs.getD j 0) p₀)
      cases hwv : w.2.vals with
      | real zs =>
        rw [hwv] at hre
        simp only [realsOf] at hre
        rw [← hre]
      | complex zs ws => rw [hwv] at hwtag'; simp [tagOf] at hwtag'
      | integer zs => rw [hwv] at hwtag'; simp [tagOf] at hwtag'
      | bool => rw [hwv] at hwtag'; simp [tagOf] at hwtag'
    | complex xs ys =>
      have hvl' : xs.length = m.nvals ∧ ys.length = m.nvals := by
        rw [hv] at hvl; exact hvl
      have hwtag' : tagOf w.2.vals = DataType.complex := by
        rw [hwtag, hv]; rfl
      have h1 := project (fun mm => reOf mm.vals) listSwap xs
        (by show reOf m.vals = xs; rw [hv]; rfl) (fun s a b => swap_reOf s a b)
      have h2 := project (fun mm => imOf mm.vals) listSwap ys
        (by show imOf m.vals = ys; rw [hv]; rfl) (fun s a b => swap_imOf s a b)
      rw [applyPermFull_list_eq 0 hp hlt hnd hmark hvl'.1] at h1
      rw [applyPermFull_list_eq 0 hp hlt hnd hmark hvl'.2] at h2
      have hre : List.map (fun j => xs.getD j 0) p₀ = reOf w.2.vals := by
        simpa using congrArg Prod.snd (Option.some.inj h1)
      have him : List.map (fun j => ys.getD j 0) p₀ = imOf w.2.vals := by
        simpa using congrArg Prod.snd (Option.some.inj h2)
      show w.2.vals = MatrixData.complex (List.map (fun j => xs.getD j 0) p₀)
        (List.map (fun j => ys.getD j 0) p₀)
      cases hwv : w.2.vals with
      | real zs => rw [hwv] at hwtag'; simp [tagOf] at hwtag'
      | complex zs ws =>
        rw [hwv] at hre him
        simp only [reOf] at hre
        simp only [imOf] at him
        rw [← hre, ← him]
      | integer zs => rw [hwv] at hwtag'; simp [tagOf] at hwtag'
      | bool => rw [hwv] at hwtag'; simp [tagOf] at hwtag'
    | integer xs =>
      have hvl' : xs.length = m.nvals := by rw [hv] at hvl; exact hvl
      have hwtag' : tagOf w.2.vals = DataType.integer := by
        rw [hwtag, hv]; rfl
      have h := project (fun mm => intsOf mm.vals) listSwap xs
        (by show intsOf m.vals = xs; rw [hv]; rfl) (fun s a b => swap_intsOf s a b)
      rw [applyPermFull_list_eq 0 hp hlt hnd hmark hvl'] at h
      have hre : List.map (fun j => xs.getD j 0) p₀ = intsOf w.2.vals := by
        simpa using congrArg Prod.snd (Option.some.inj h)
      show w.2.vals = MatrixData.integer (List.map (fun j => xs.getD j 0) p₀)
      cases hwv : w.2.vals with
      | real zs => rw [hwv] at hwtag'; simp [tagOf] at hwtag'
      | complex zs ws => rw [hwv] at hwtag'; simp [tagOf] at hwtag'
      | integer zs =>
        rw [hwv] at hre
        simp only [intsOf] at hre
        rw [← hre]
      | bool => rw [hwv] at hwtag'; simp [tagOf] at hwtag'
    | bool =>
      have hwtag' : tagOf w.2.vals = DataType.bool := by
        rw [hwtag, hv]; rfl
      show w.2.vals = MatrixData.bool
      cases hwv : w.2.vals with
      | real zs => rw [hwv] at hwtag'; simp [tagOf] at hwtag'
      | complex zs ws => rw [hwv] at hwtag'; simp [tagOf] at hwtag'
      | integer zs => rw [hwv] at hwtag'; simp [tagOf] at hwtag'
      | bool => rfl
  show applyPermFull Matrix.swap m.nvals p₀ m = _
  rw [hw]
  obtain ⟨w1, w2⟩ := w
  obtain ⟨r2, c2, v2, nr2, nc2, nv2⟩ := w2
  simp only at hw1 hwrows hwcols hwvals hwnrows hwncols hwnvals
  rw [permuteSpec, hw1, hwrows, hwcols, hwvals, hwnrows, hwncols, hwnvals]
/-! Properties of the lexicographic key comparison and of the sorts. -/

theorem pairLe_total (a b : Nat × Nat) : (pairLe a b || pairLe b a) = true := by
  simp only [pairLe, Bool.or_eq_true, Bool.and_eq_true, decide_eq_true_eq,
    beq_iff_eq]
  omega

theorem pairLe_trans (a b c : Nat × Nat) :
    pairLe a b = true → pairLe b c = true → pairLe a c = true := by
  simp only [pairLe, Bool.or_eq_true, Bool.and_eq_true, decide_eq_true_eq,
    beq_iff_eq]
  omega

theorem pairLe_antisymm (a b : Nat × Nat) :
    pairLe a b = true → pairLe b a = true → a = b := by
  simp only [pairLe, Bool.or_eq_true, Bool.and_eq_true, decide_eq_true_eq,
    beq_iff_eq]
  intro h1 h2
  obtain ⟨a1, a2⟩ := a
  obtain ⟨b1, b2⟩ := b
  simp only [Prod.mk.injEq]
  simp only at h1 h2
  omega

/-- `sortBy` returns a permutation of its input. -/
theorem sortBy_perm {α : Type _} (l : List α) (le : α → α → Bool) :
    (sortBy l le).Perm l :=
  List.perm_insertionSort _ l

/-- `sortBy` preserves length. -/
@[simp]
theorem sortBy_length {α : Type _} (l : List α) (le : α → α → Bool) :
    (sortBy l le).length = l.length :=
  List.length_insertionSort _ l

/-- For a transitive and total comparator, `sortBy` returns a list sorted
by it. -/
theorem sortBy_sorted {α : Type _} (le : α → α → Bool)
    (htr : ∀ a b c, le a b = true → le b c = true → le a c = true)
    (hto : ∀ a b, (le a b || le b a) = true) (l : List α) :
    (sortBy l le).Pairwise (fun a b => le a b = true) := by
  haveI : IsTotal α (fun a b => le a b = true) :=
    ⟨fun a b => by
      have h := hto a b
      simp only [Bool.or_eq_true] at h
      exact h⟩
  haveI : IsTrans α (fun a b => le a b = true) := ⟨fun a b c => htr a b c⟩
  exact List.sorted_insertionSort _ l

/-- Two sorted lists that are permutations of each other with pairwise
distinct keys are equal (sortedness by any key order, ties impossible). -/
theorem sorted_perm_unique {τ : Type _} (K : τ → Nat × Nat) :
    ∀ (l₁ l₂ : List τ), l₁.Perm l₂ →
      l₁.Pairwise (fun a b => pairLe (K a) (K b) = true) →
      l₂.Pairwise (fun a b => pairLe (K a) (K b) = true) →
      (l₁.map K).Nodup → l₁ = l₂ := by
  intro l₁
  induction l₁ with
  | nil =>
    intro l₂ hperm _ _ _
    exact List.Perm.nil_eq hperm
  | cons a t₁ IH =>
    intro l₂ hperm hs₁ hs₂ hnd
    cases l₂ with
    | nil => exact absurd hperm.length_eq (by simp)
    | cons b t₂ =>
      have hab : a = b := by
        by_contra hne
        have ha2 : a ∈ b :: t₂ := hperm.mem_iff.mp (by simp)
        have hb1 : b ∈ a :: t₁ := hperm.mem_iff.mpr (by simp)
        have hat2 : a ∈ t₂ := by
          rcases List.mem_cons.mp ha2 with h | h
          · exact absurd h hne
          · exact h
        have hbt1 : b ∈ t₁ := by
          rcases List.mem_cons.mp hb1 with h | h
          · exact absurd h.symm hne
          · exact h
        have h1 : pairLe (K a) (K b) = true :=
          (List.pairwise_cons.mp hs₁).1 b hbt1
        have h2 : pairLe (K b) (K a) = true :=
          (List.pairwise_cons.mp hs₂).1 a hat2
        have hk : K a = K b := pairLe_antisymm _ _ h1 h2
        rw [List.map_cons, List.nodup_cons] at hnd
        exact hnd.1 (hk ▸ List.mem_map_of_mem K hbt1)
      subst hab
      have ht : t₁ = t₂ := by
        refine IH t₂ hperm.cons_inv (List.pairwise_cons.mp hs₁).2
          (List.pairwise_cons.mp hs₂).2 ?_
        rw [List.map_cons, List.nodup_cons] at hnd
        exact hnd.2
      rw [ht]

/-- Sorting materialized tuples directly agrees with sorting the index vector
and then gathering the tuples, whenever the keys are pairwise distinct (the
case Invariant B licenses). -/
theorem sortBy_map_eq {τ : Type _} (K : τ → Nat × Nat) (tup : Nat → τ)
    (n : Nat)
    (hnd : ((List.range n).map (fun i => K (tup i))).Nodup) :
    sortBy ((List.range n).map tup) (fun a b => pairLe (K a) (K b)) =
      (sortBy (List.range n)
        (fun a b => pairLe (K (tup a)) (K (tup b)))).map tup := by
  have hpermL : (sortBy ((List.range n).map tup)
      (fun a b => pairLe (K a) (K b))).Perm ((List.range n).map tup) :=
    sortBy_perm _ _
  have hpermR : ((sortBy (List.range n)
      (fun a b => pairLe (K (tup a)) (K (tup b)))).map tup).Perm
        ((List.range n).map tup) :=
    (sortBy_perm (List.range n) _).map tup
  have hsortL := sortBy_sorted
    (fun a b => pairLe (K a) (K b))
    (fun a b c => pairLe_trans (K a) (K b) (K c))
    (fun a b => pairLe_total (K a) (K b))
    ((List.range n).map tup)
  have hsortR : ((sortBy (List.range n)
      (fun a b => pairLe (K (tup a)) (K (tup b)))).map tup).Pairwise
        (fun a b => pairLe (K a) (K b) = true) := by
    rw [List.pairwise_map]
    exact sortBy_sorted
      (fun a b => pairLe (K (tup a)) (K (tup b)))
      (fun a b c => pairLe_trans (K (tup a)) (K (tup b)) (K (tup c)))
      (fun a b => pairLe_total (K (tup a)) (K (tup b)))
      (List.range n)
  refine sorted_perm_unique K _ _ (hpermL.trans hpermR.symm) hsortL hsortR ?_
  have : ((sortBy ((List.range n).map tup)
      (fun a b => pairLe (K a) (K b))).map K).Perm
        (((List.range n).map tup).map K) := hpermL.map K
  refine (this.nodup_iff).mpr ?_
  rw [List.map_map]
  exact hnd

theorem scatter_eq {α : Type _} {old new : List α} (h : new.length = old.length) :
    scatter old new = new := by
  rw [scatter, h, List.drop_length, List.take_of_length_le (by omega)]
  simp

/-- Key facts about the index permutation produced by `sort_unstable_by` over
the identity index vector. -/
theorem sortBy_range_perm_props (n : Nat) (le : Nat → Nat → Bool) :
    (sortBy (List.range n) le).length = n ∧
    (∀ x ∈ sortBy (List.range n) le, x < n) ∧
    (sortBy (List.range n) le).Nodup := by
  have hperm := sortBy_perm (List.range n) le
  refine ⟨by rw [hperm.length_eq, List.length_range], ?_, ?_⟩
  · intro x hx
    exact List.mem_range.mp (hperm.mem_iff.mp hx)
  · exact hperm.symm.nodup (List.nodup_range n)

/-- Algorithm equivalence, generic in the ordering key: applying the
permutation obtained by sorting the index vector produces exactly the
materialize-and-scatter result. -/
theorem permute_eq_sortMajor (m : Matrix) (keyOf : Nat × Nat → Nat × Nat)
    (hA : InvariantA m)
    (hndK : ((List.range m.nvals).map (fun i => keyOf (m.keyAt i))).Nodup)
    (hmark : m.nvals ≤ MARK) :
    m.apply_permutation (sortBy (List.range m.nvals)
      (fun a b => pairLe (keyOf (m.keyAt a)) (keyOf (m.keyAt b)))) =
      some (m.sortMajor keyOf) := by
  obtain ⟨hlen, hmem, hnd⟩ := sortBy_range_perm_props m.nvals
    (fun a b => pairLe (keyOf (m.keyAt a)) (keyOf (m.keyAt b)))
  have heq := applyPermutationFull_eq hA hlen hmem hnd hmark
  rw [Matrix.applyPermutationFull] at heq
  rw [Matrix.apply_permutation, Matrix.applyPermutationFull, heq,
    Option.map_some']
  congr 1
  obtain ⟨mrows, mcols, mvals, mnr, mnc, mnv⟩ := m
  obtain ⟨hrl, hcl, hvl⟩ := hA
  simp only at hrl hcl hvl hndK ⊢
  cases mvals with
  | real xs =>
    have hvl' : xs.length = mnv := hvl
    have hkey :
        sortBy ((List.range mnv).map
          (fun i => (mrows.getD i 0, mcols.getD i 0, xs.getD i 0)))
            (fun a b => pairLe (keyOf (a.1, a.2.1)) (keyOf (b.1, b.2.1)))
        = (sortBy (List.range mnv)
            (fun a b => pairLe (keyOf (mrows.getD a 0, mcols.getD a 0))
              (keyOf (mrows.getD b 0, mcols.getD b 0)))).map
            (fun i => (mrows.getD i 0, mcols.getD i 0, xs.getD i 0)) :=
      sortBy_map_eq (fun e => keyOf (e.1, e.2.1))
        (fun i => (mrows.getD i 0, mcols.getD i 0, xs.getD i 0)) mnv hndK
    obtain ⟨hlen', _, _⟩ := sortBy_range_perm_props mnv
      (fun a b => pairLe (keyOf (mrows.getD a 0, mcols.getD a 0))
        (keyOf (mrows.getD b 0, mcols.getD b 0)))
    simp only [permuteSpec, Matrix.sortMajor, Matrix.keyAt] at hkey ⊢
    rw [hkey, List.map_map, List.map_map, List.map_map,
      scatter_eq (by simp [hlen', hrl]), scatter_eq (by simp [hlen', hcl]),
      scatter_eq (by simp [hlen', hvl'])]
    rfl
  | complex xs ys =>
    have hvl' : xs.length = mnv ∧ ys.length = mnv := hvl
    have hkey :
        sortBy ((List.range mnv).map
          (fun i => (mrows.getD i 0, mcols.getD i 0, xs.getD i 0, ys.getD i 0)))
            (fun a b => pairLe (keyOf (a.1, a.2.1)) (keyOf (b.1, b.2.1)))
        = (sortBy (List.range mnv)
            (fun a b => pairLe (keyOf (mrows.getD a 0, mcols.getD a 0))
              (keyOf (mrows.getD b 0, mcols.getD b 0)))).map
            (fun i => (mrows.getD i 0, mcols.getD i 0, xs.getD i 0, ys.getD i 0)) :=
      sortBy_map_eq (fun e => keyOf (e.1, e.2.1))
        (fun i => (mrows.getD i 0, mcols.getD i 0, xs.getD i 0, ys.getD i 0)) mnv hndK
    obtain ⟨hlen', _, _⟩ := sortBy_range_perm_props mnv
      (fun a b => pairLe (keyOf (mrows.getD a 0, mcols.getD a 0))
        (keyOf (mrows.getD b 0, mcols.getD b 0)))
    simp only [permuteSpec, Matrix.sortMajor, Matrix.keyAt] at hkey ⊢
    rw [hkey, List.map_map, List.map_map, List.map_map, List.map_map,
      scatter_eq (by simp [hlen', hrl]), scatter_eq (by simp [hlen', hcl]),
      scatter_eq (by simp [hlen', hvl'.1]), scatter_eq (by simp [hlen', hvl'.2])]
    rfl
  | integer xs =>
    have hvl' : xs.length = mnv := hvl
    have hkey :
        sortBy ((List.range mnv).map
          (fun i => (mrows.getD i 0, mcols.getD i 0, xs.getD i 0)))
            (fun a b => pairLe (keyOf (a.1, a.2.1)) (keyOf (b.1, b.2.1)))
        = (sortBy (List.range mnv)
            (fun a b => pairLe (keyOf (mrows.getD a 0, mcols.getD a 0))
              (keyOf (mrows.getD b 0, mcols.getD b 0)))).map
            (fun i => (mrows.getD i 0, mcols.getD i 0, xs.getD i 0)) :=
      sortBy_map_eq (fun e => keyOf (e.1, e.2.1))
        (fun i => (mrows.getD i 0, mcols.getD i 0, xs.getD i 0)) mnv hndK
    obtain ⟨hlen', _, _⟩ := sortBy_range_perm_props mnv
      (fun a b => pairLe (keyOf (mrows.getD a 0, mcols.getD a 0))
        (keyOf (mrows.getD b 0, mcols.getD b 0)))
    simp only [permuteSpec, Matrix.sortMajor, Matrix.keyAt] at hkey ⊢
    rw [hkey, List.map_map, List.map_map, List.map_map,
      scatter_eq (by simp [hlen', hrl]), scatter_eq (by simp [hlen', hcl]),
      scatter_eq (by simp [hlen', hvl'])]
    rfl
  | bool =>
    have hkey :
        sortBy ((List.range mnv).map
          (fun i => (mrows.getD i 0, mcols.getD i 0)))
            (fun a b => pairLe (keyOf a) (keyOf b))
        = (sortBy (List.range mnv)
            (fun a b => pairLe (keyOf (mrows.getD a 0, mcols.getD a 0))
              (keyOf (mrows.getD b 0, mcols.getD b 0)))).map
            (fun i => (mrows.getD i 0, mcols.getD i 0)) :=
      sortBy_map_eq keyOf
        (fun i => (mrows.getD i 0, mcols.getD i 0)) mnv hndK
    obtain ⟨hlen', _, _⟩ := sortBy_range_perm_props mnv
      (fun a b => pairLe (keyOf (mrows.getD a 0, mcols.getD a 0))
        (keyOf (mrows.getD b 0, mcols.getD b 0)))
    simp only [permuteSpec, Matrix.sortMajor, Matrix.keyAt] at hkey ⊢
    rw [hkey, List.map_map, List.map_map,
      scatter_eq (by simp [hlen', hrl]), scatter_eq (by simp [hlen', hcl])]
    rfl

/-- Algorithm equivalence for the row-major key. -/
theorem permute_row_major_eq (m : Matrix) (hA : InvariantA m)
    (hB : InvariantB m) (hmark : m.nvals ≤ MARK) :
    m.permute_row_major = some m.sort_row_major :=
  permute_eq_sortMajor m id hA hB hmark

/-- Algorithm equivalence for the col-major key. -/
theorem permute_col_major_eq (m : Matrix) (hA : InvariantA m)
    (hB : InvariantB m) (hmark : m.nvals ≤ MARK) :
    m.permute_col_major = some m.sort_col_major := by
  refine permute_eq_sortMajor m Prod.swap hA ?_ hmark
  have : (List.range m.nvals).map (fun i => Prod.swap (m.keyAt i)) =
      ((List.range m.nvals).map m.keyAt).map Prod.swap := by
    rw [List.map_map]
    rfl
  rw [this]
  exact List.Nodup.map Prod.swap_injective hB

/-- The result of the materialize-and-scatter strategy is sorted by its key:
every adjacent pair of keys compares less-or-equal. -/
theorem sortMajor_sorted (m : Matrix) (keyOf : Nat × Nat → Nat × Nat)
    (hA : InvariantA m) :
    ∀ i, i + 1 < (m.sortMajor keyOf).nvals →
      pairLe (keyOf ((m.sortMajor keyOf).keyAt i))
        (keyOf ((m.sortMajor keyOf).keyAt (i + 1))) = true := by
  obtain ⟨mrows, mcols, mvals, mnr, mnc, mnv⟩ := m
  obtain ⟨hrl, hcl, hvl⟩ := hA
  simp only at hrl hcl hvl
  have main : ∀ {τ : Type} (tup : Nat → τ) (K : τ → Nat × Nat)
      (rows' cols' : List Nat),
      rows' = (sortBy ((List.range mnv).map tup)
        (fun a b => pairLe (keyOf (K a)) (keyOf (K b)))).map (fun e => (K e).1) →
      cols' = (sortBy ((List.range mnv).map tup)
        (fun a b => pairLe (keyOf (K a)) (keyOf (K b)))).map (fun e => (K e).2) →
      ∀ i, i + 1 < mnv →
        pairLe (keyOf (rows'.getD i 0, cols'.getD i 0))
          (keyOf (rows'.getD (i + 1) 0, cols'.getD (i + 1) 0)) = true := by
    intro τ tup K rows' cols' hr hc i hi
    have hslen : (sortBy ((List.range mnv).map tup)
        (fun a b => pairLe (keyOf (K a)) (keyOf (K b)))).length = mnv := by
      rw [sortBy_length, List.length_map, List.length_range]
    have hkey : ∀ (j : Nat) (hj : j < mnv), (rows'.getD j 0, cols'.getD j 0) =
        K ((sortBy ((List.range mnv).map tup)
          (fun a b => pairLe (keyOf (K a)) (keyOf (K b)))).get ⟨j, by omega⟩) := by
      intro j hj
      rw [hr, hc]
      rw [List.getD_eq_getElem _ 0 (by rw [List.length_map]; omega),
        List.getD_eq_getElem _ 0 (by rw [List.length_map]; omega),
        List.getElem_map, List.getElem_map]
      simp [List.get_eq_getElem]
    have hsorted := sortBy_sorted
      (fun a b => pairLe (keyOf (K a)) (keyOf (K b)))
      (fun a b c => pairLe_trans (keyOf (K a)) (keyOf (K b)) (keyOf (K c)))
      (fun a b => pairLe_total (keyOf (K a)) (keyOf (K b)))
      ((List.range mnv).map tup)
    rw [List.pairwise_iff_getElem] at hsorted
    rw [hkey i (by omega), hkey (i + 1) hi]
    have := hsorted i (i + 1) (by omega) (by omega) (by omega)
    simpa using this
  cases mvals with
  | real xs =>
    intro i hi
    have hslen2 : (sortBy ((List.range mnv).map
        (fun j => (mrows.getD j 0, mcols.getD j 0, xs.getD j 0)))
        (fun a b => pairLe (keyOf (a.1, a.2.1)) (keyOf (b.1, b.2.1)))).length
          = mnv := by
      rw [sortBy_length, List.length_map, List.length_range]
    have hr : (Matrix.sortMajor
        ⟨mrows, mcols, .real xs, mnr, mnc, mnv⟩ keyOf).rows
        = (sortBy ((List.range mnv).map
          (fun j => (mrows.getD j 0, mcols.getD j 0, xs.getD j 0)))
          (fun a b => pairLe (keyOf (a.1, a.2.1)) (keyOf (b.1, b.2.1)))).map
          (fun e => e.1) := by
      show scatter mrows _ = _
      exact scatter_eq (by rw [List.length_map, hslen2, hrl])
    have hc : (Matrix.sortMajor
        ⟨mrows, mcols, .real xs, mnr, mnc, mnv⟩ keyOf).cols
        = (sortBy ((List.range mnv).map
          (fun j => (mrows.getD j 0, mcols.getD j 0, xs.getD j 0)))
          (fun a b => pairLe (keyOf (a.1, a.2.1)) (keyOf (b.1, b.2.1)))).map
          (fun e => e.2.1) := by
      show scatter mcols _ = _
      exact scatter_eq (by rw [List.length_map, hslen2, hcl])
    simp only [Matrix.keyAt, hr, hc]
    exact main (fun j => (mrows.getD j 0, mcols.getD j 0, xs.getD j 0))
      (fun e => (e.1, e.2.1)) _ _ rfl rfl i hi
  | complex xs ys =>
    intro i hi
    have hslen2 : (sortBy ((List.range mnv).map
        (fun j => (mrows.getD j 0, mcols.getD j 0, xs.getD j 0, ys.getD j 0)))
        (fun a b => pairLe (keyOf (a.1, a.2.1)) (keyOf (b.1, b.2.1)))).length
          = mnv := by
      rw [sortBy_length, List.length_map, List.length_range]
    have hr : (Matrix.sortMajor
        ⟨mrows, mcols, .complex xs ys, mnr, mnc, mnv⟩ keyOf).rows
        = (sortBy ((List.range mnv).map
          (fun j => (mrows.getD j 0, mcols.getD j 0, xs.getD j 0, ys.getD j 0)))
          (fun a b => pairLe (keyOf (a.1, a.2.1)) (keyOf (b.1, b.2.1)))).map
          (fun e => e.1) := by
      show scatter mrows _ = _
      exact scatter_eq (by rw [List.length_map, hslen2, hrl])
    have hc : (Matrix.sortMajor
        ⟨mrows, mcols, .complex xs ys, mnr, mnc, mnv⟩ keyOf).cols
        = (sortBy ((List.range mnv).map
          (fun j => (mrows.getD j 0, mcols.getD j 0, xs.getD j 0, ys.getD j 0)))
          (fun a b => pairLe (keyOf (a.1, a.2.1)) (keyOf (b.1, b.2.1)))).map
          (fun e => e.2.1) := by
      show scatter mcols _ = _
      exact scatter_eq (by rw [List.length_map, hslen2, hcl])
    simp only [Matrix.keyAt, hr, hc]
    exact main (fun j => (mrows.getD j 0, mcols.getD j 0, xs.getD j 0, ys.getD j 0))
      (fun e => (e.1, e.2.1)) _ _ rfl rfl i hi
  | integer xs =>
    intro i hi
    have hslen2 : (sortBy ((List.range mnv).map
        (fun j => (mrows.getD j 0, mcols.getD j 0, xs.getD j 0)))
        (fun a b => pairLe (keyOf (a.1, a.2.1)) (keyOf (b.1, b.2.1)))).length
          = mnv := by
      rw [sortBy_length, List.length_map, List.length_range]
    have hr : (Matrix.sortMajor
        ⟨mrows, mcols, .integer xs, mnr, mnc, mnv⟩ keyOf).rows
        = (sortBy ((List.range mnv).map
          (fun j => (mrows.getD j 0, mcols.getD j 0, xs.getD j 0)))
          (fun a b => pairLe (keyOf (a.1, a.2.1)) (keyOf (b.1, b.2.1)))).map
          (fun e => e.1) := by
      show scatter mrows _ = _
      exact scatter_eq (by rw [List.length_map, hslen2, hrl])
    have hc : (Matrix.sortMajor
        ⟨mrows, mcols, .integer xs, mnr, mnc, mnv⟩ keyOf).cols
        = (sortBy ((List.range mnv).map
          (fun j => (mrows.getD j 0, mcols.getD j 0, xs.getD j 0)))
          (fun a b => pairLe (keyOf (a.1, a.2.1)) (keyOf (b.1, b.2.1)))).map
          (fun e => e.2.1) := by
      show scatter mcols _ = _
      exact scatter_eq (by rw [List.length_map, hslen2, hcl])
    simp only [Matrix.keyAt, hr, hc]
    exact main (fun j => (mrows.getD j 0, mcols.getD j 0, xs.getD j 0))
      (fun e => (e.1, e.2.1)) _ _ rfl rfl i hi
  | bool =>
    intro i hi
    have hslen2 : (sortBy ((List.range mnv).map
        (fun j => (mrows.getD j 0, mcols.getD j 0)))
        (fun a b => pairLe (keyOf a) (keyOf b))).length = mnv := by
      rw [sortBy_length, List.length_map, List.length_range]
    have hr : (Matrix.sortMajor
        ⟨mrows, mcols, .bool, mnr, mnc, mnv⟩ keyOf).rows
        = (sortBy ((List.range mnv).map
          (fun j => (mrows.getD j 0, mcols.getD j 0)))
          (fun a b => pairLe (keyOf a) (keyOf b))).map (fun e => e.1) := by
      show scatter mrows _ = _
      exact scatter_eq (by rw [List.length_map, hslen2, hrl])
    have hc : (Matrix.sortMajor
        ⟨mrows, mcols, .bool, mnr, mnc, mnv⟩ keyOf).cols
        = (sortBy ((List.range mnv).map
          (fun j => (mrows.getD j 0, mcols.getD j 0)))
          (fun a b => pairLe (keyOf a) (keyOf b))).map (fun e => e.2) := by
      show scatter mcols _ = _
      exact scatter_eq (by rw [List.length_map, hslen2, hcl])
    simp only [Matrix.keyAt, hr, hc]
    exact main (fun j => (mrows.getD j 0, mcols.getD j 0))
      (fun e => e) _ _ rfl rfl i hi

/-! Statements of the ordering properties and remaining helper lemmas. -/

/-- Row-major sortedness: adjacent (row, col) keys ascend lexicographically. -/
def RowSorted (m : Matrix) : Prop :=
  ∀ i, i + 1 < m.nvals → pairLe (m.keyAt i) (m.keyAt (i + 1)) = true

/-- Col-major sortedness: adjacent (col, row) keys ascend lexicographically. -/
def ColSorted (m : Matrix) : Prop :=
  ∀ i, i + 1 < m.nvals →
    pairLe (Prod.swap (m.keyAt i)) (Prod.swap (m.keyAt (i + 1))) = true

theorem getD_map_getD {α : Type _} (p : List Nat) (f : Nat → α) (d : α)
    (i : Nat) (hi : i < p.length) :
    (p.map f).getD i d = f (p.getD i 0) := by
  rw [List.getD_eq_getElem _ d (by simpa using hi), List.getElem_map,
    List.getD_eq_getElem p 0 hi]

/-- A duplicate-free list of n values below n contains every value below n. -/
theorem perm_surj {p : List Nat} {n : Nat} (hp : p.length = n)
    (hlt : ∀ x ∈ p, x < n) (hnd : p.Nodup) : ∀ k, k < n → k ∈ p := by
  intro k hk
  have hsub : p.toFinset ⊆ Finset.range n := by
    intro x hx
    exact Finset.mem_range.mpr (hlt x (List.mem_toFinset.mp hx))
  have hcard : (Finset.range n).card ≤ p.toFinset.card := by
    rw [List.toFinset_card_of_nodup hnd, hp, Finset.card_range]
  have := Finset.eq_of_subset_of_card_le hsub hcard
  rw [← List.mem_toFinset, this]
  exact Finset.mem_range.mpr hk

/-- A bijective permutation with no mark bit set forces the length to fit
under the mark bit. -/
theorem nomark_le_MARK {p : List Nat} {n : Nat} (hp : p.length = n)
    (hlt : ∀ x ∈ p, x < n) (hnd : p.Nodup)
    (hnm : ∀ x ∈ p, is_visited x = false) : n ≤ MARK := by
  by_contra hcon
  have hmem : MARK ∈ p := perm_surj hp hlt hnd MARK (by omega)
  have hvis : is_visited MARK = true := by
    rw [is_visited_eq_testBit, MARK, Nat.testBit_two_pow]
    simp
  rw [hnm MARK hmem] at hvis
  exact Bool.false_ne_true hvis

theorem getD_listSwap_fst_all {α : Type _} (l : List α) {a b : Nat} (d : α)
    (ha : a < l.length) (hb : b < l.length) :
    (listSwap l a b).getD a d = l.getD b d := by
  by_cases hab : a = b
  · subst hab
    exact getD_listSwap_snd l d ha ha
  · exact getD_listSwap_fst l d ha hb hab

/-- A single concrete store used to witness the reordering claims: the Real
store parsed from the spec's concrete scenario. -/
def exampleReal : Matrix :=
  { rows := [1, 2, 1], cols := [1, 2, 2], vals := .real [5, 3, 4],
    nrows := 2, ncols := 2, nvals := 3 }

/-- A concrete Complex store with tagging values (real part = index,
imaginary part = negated index), as the spec's test suggestion. -/
def exampleComplex : Matrix :=
  { rows := [1, 2, 1], cols := [1, 2, 2], vals := .complex [0, 1, 2] [0, -1, -2],
    nrows := 2, ncols := 2, nvals := 3 }

/-- Claim C1: for every Entry Store with pairwise distinct (row, col) pairs
(well-formed parallel arrays, and the entry count within the sign-bit
precondition the in-place algorithm requires), both row-major strategies
leave adjacent (row, col) keys ascending lexicographically, and both
col-major strategies leave adjacent (col, row) keys ascending. -/
theorem claim_C1_reorder_sorted (m : Matrix)
    (hA : InvariantA m) (hB : InvariantB m) (hmark : m.nvals ≤ MARK) :
    RowSorted m.sort_row_major ∧
    (∃ m', m.permute_row_major = some m' ∧ RowSorted m') ∧
    ColSorted m.sort_col_major ∧
    (∃ m', m.permute_col_major = some m' ∧ ColSorted m') := by
  have h1 : RowSorted m.sort_row_major := by
    intro i hi
    exact sortMajor_sorted m id hA i hi
  have h2 : ColSorted m.sort_col_major := by
    intro i hi
    exact sortMajor_sorted m Prod.swap hA i hi
  exact ⟨h1, ⟨_, permute_row_major_eq m hA hB hmark, h1⟩, h2,
    ⟨_, permute_col_major_eq m hA hB hmark, h2⟩⟩

theorem claim_C1_witness :
    RowSorted exampleReal.sort_row_major ∧
    (∃ m', exampleReal.permute_row_major = some m' ∧ RowSorted m') ∧
    ColSorted exampleReal.sort_col_major ∧
    (∃ m', exampleReal.permute_col_major = some m' ∧ ColSorted m') :=
  claim_C1_reorder_sorted exampleReal (by decide) (by decide) (by decide)

/-- Claim C2: apply_permutation with a bijective permutation vector with no
mark bit set succeeds and leaves at every position i the entry previously at
position p[i]: row, col, and every active value-array component. -/
theorem claim_C2_apply_permutation (m : Matrix) (p : List Nat)
    (hA : InvariantA m) (hp : p.length = m.nvals)
    (hlt : ∀ x ∈ p, x < m.nvals) (hnd : p.Nodup)
    (hnomark : ∀ x ∈ p, is_visited x = false) :
    ∃ m', m.apply_permutation p = some m' ∧
      ∀ i, i < m.nvals →
        m'.rows.getD i 0 = m.rows.getD (p.getD i 0) 0 ∧
        m'.cols.getD i 0 = m.cols.getD (p.getD i 0) 0 ∧
        (realsOf m'.vals).getD i 0 = (realsOf m.vals).getD (p.getD i 0) 0 ∧
        (reOf m'.vals).getD i 0 = (reOf m.vals).getD (p.getD i 0) 0 ∧
        (imOf m'.vals).getD i 0 = (imOf m.vals).getD (p.getD i 0) 0 ∧
        (intsOf m'.vals).getD i 0 = (intsOf m.vals).getD (p.getD i 0) 0 := by
  have hmark : m.nvals ≤ MARK := nomark_le_MARK hp hlt hnd hnomark
  refine ⟨permuteSpec m p, ?_, ?_⟩
  · rw [Matrix.apply_permutation, applyPermutationFull_eq hA hp hlt hnd hmark,
      Option.map_some']
  · intro i hi
    have hip : i < p.length := by omega
    refine ⟨getD_map_getD p _ 0 i hip, getD_map_getD p _ 0 i hip, ?_, ?_, ?_, ?_⟩
    all_goals
      cases hv : m.vals <;>
        simp only [permuteSpec, hv, realsOf, reOf, imOf, intsOf] <;>
        first
          | exact getD_map_getD p _ 0 i hip
          | rfl

theorem claim_C2_witness :
    ∃ m', exampleReal.apply_permutation [1, 2, 0] = some m' ∧
      ∀ i, i < exampleReal.nvals →
        m'.rows.getD i 0 = exampleReal.rows.getD ([1, 2, 0].getD i 0) 0 ∧
        m'.cols.getD i 0 = exampleReal.cols.getD ([1, 2, 0].getD i 0) 0 ∧
        (realsOf m'.vals).getD i 0 =
          (realsOf exampleReal.vals).getD ([1, 2, 0].getD i 0) 0 ∧
        (reOf m'.vals).getD i 0 =
          (reOf exampleReal.vals).getD ([1, 2, 0].getD i 0) 0 ∧
        (imOf m'.vals).getD i 0 =
          (imOf exampleReal.vals).getD ([1, 2, 0].getD i 0) 0 ∧
        (intsOf m'.vals).getD i 0 =
          (intsOf exampleReal.vals).getD ([1, 2, 0].getD i 0) 0 :=
  claim_C2_apply_permutation exampleReal [1, 2, 0] (by decide) (by decide)
    (by decide) (by decide) (by decide)

/-- Claim C3: under Invariant B (no duplicate (row, col) pairs), with
well-formed arrays and the entry count within the sign-bit precondition, the
cycle-following strategy and the materialize-and-scatter strategy produce
identical stores for both ordering keys. -/
theorem claim_C3_strategy_equivalence (m : Matrix)
    (hA : InvariantA m) (hB : InvariantB m) (hmark : m.nvals ≤ MARK) :
    m.permute_row_major = some m.sort_row_major ∧
    m.permute_col_major = some m.sort_col_major :=
  ⟨permute_row_major_eq m hA hB hmark, permute_col_major_eq m hA hB hmark⟩

theorem claim_C3_witness :
    exampleComplex.permute_row_major = some exampleComplex.sort_row_major ∧
    exampleComplex.permute_col_major = some exampleComplex.sort_col_major :=
  claim_C3_strategy_equivalence exampleComplex (by decide) (by decide)
    (by decide)

theorem toggle_mark_of_mark (x : Nat) :
    toggle_mark_idx (mark_visited x) = x := by
  rw [toggle_mark_idx, mark_visited, Nat.xor_assoc]
  simp

theorem map_mark_map_mark (p : List Nat) :
    (p.map mark_visited).map mark_visited = p := by
  rw [List.map_map]
  have : mark_visited ∘ mark_visited = id := funext mark_visited_mark_visited
  rw [this, List.map_id]

theorem map_toggle_map_mark (p : List Nat) :
    (p.map mark_visited).map toggle_mark_idx = p := by
  rw [List.map_map]
  have : toggle_mark_idx ∘ mark_visited = id := funext toggle_mark_of_mark
  rw [this, List.map_id]

/-- Claim C8: after the cycle-following pass over a bijective permutation
whose length fits in isize, every slot of the consumed permutation array has
its mark bit set, and clearing every mark bit restores the original
permutation exactly; hence permutation.rs's apply_slice_bkwd_in_place, whose
final pass does that unmarking, returns the permutation unchanged. -/
theorem claim_C8_mark_bits (m : Matrix) (p : List Nat)
    (hA : InvariantA m) (hp : p.length = m.nvals)
    (hlt : ∀ x ∈ p, x < m.nvals) (hnd : p.Nodup)
    (hsz : m.nvals ≤ MARK - 1) :
    (∃ P' m', m.applyPermutationFull p = some (P', m') ∧
      (∀ x ∈ P', is_visited x = true) ∧ P'.map mark_visited = p) ∧
    (∀ s : List Rat, s.length = p.length →
      ∃ s', apply_slice_bkwd_in_place p s = some (p, s')) := by
  have hpos : 0 < MARK := by
    rw [MARK]
    positivity
  have hmark : m.nvals ≤ MARK := by omega
  constructor
  · refine ⟨p.map mark_visited, permuteSpec m p,
      applyPermutationFull_eq hA hp hlt hnd hmark, ?_, map_mark_map_mark p⟩
    intro x hx
    obtain ⟨y, hy, rfl⟩ := List.mem_map.mp hx
    exact is_visited_mark_visited y (by have := hlt y hy; omega)
  · intro s hs
    refine ⟨p.map (fun j => s.getD j 0), ?_⟩
    rw [apply_slice_bkwd_in_place, if_pos ⟨hs, by omega⟩]
    rw [applyPermFull_list_eq 0 rfl (by intro x hx; rw [hp]; exact hlt x hx) hnd
      (by omega) hs]
    show some ((p.map mark_visited).map toggle_mark_idx,
      p.map (fun j => s.getD j 0)) = _
    rw [map_toggle_map_mark]

theorem claim_C8_witness :
    (∃ P' m', exampleReal.applyPermutationFull [1, 2, 0] = some (P', m') ∧
      (∀ x ∈ P', is_visited x = true) ∧ P'.map mark_visited = [1, 2, 0]) ∧
    (∀ s : List Rat, s.length = ([1, 2, 0] : List Nat).length →
      ∃ s', apply_slice_bkwd_in_place [1, 2, 0] s = some ([1, 2, 0], s')) :=
  claim_C8_mark_bits exampleReal [1, 2, 0] (by decide) (by decide) (by decide)
    (by decide) (by decide)

/-- Entries of m' each originate wholly from one position of m, with the
Complex real and imaginary components taken from that same position. -/
def ComplexConsistent (m : Matrix) (xs ys : List Rat) (m' : Matrix) : Prop :=
  ∀ i, i < m'.nvals → ∃ j, j < m.nvals ∧
    m'.rows.getD i 0 = m.rows.getD j 0 ∧
    m'.cols.getD i 0 = m.cols.getD j 0 ∧
    (reOf m'.vals).getD i 0 = xs.getD j 0 ∧
    (imOf m'.vals).getD i 0 = ys.getD j 0

theorem swap_getD_pair {α : Type _} (l : List α) (a b : Nat) (d : α)
    (h : l = [] ∨ (a < l.length ∧ b < l.length)) :
    (listSwap l a b).getD a d = l.getD b d ∧
      (listSwap l a b).getD b d = l.getD a d := by
  rcases h with rfl | ⟨ha, hb⟩
  · constructor <;> rfl
  · exact ⟨getD_listSwap_fst_all l d ha hb, getD_listSwap_snd l d ha hb⟩

theorem realsOf_cases (m : Matrix) (hA : InvariantA m) :
    realsOf m.vals = [] ∨ (realsOf m.vals).length = m.nvals := by
  obtain ⟨_, _, hvl⟩ := hA
  cases hv : m.vals with
  | real xs =>
    right
    rw [hv] at hvl
    exact hvl
  | complex xs ys => exact Or.inl rfl
  | integer xs => exact Or.inl rfl
  | bool => exact Or.inl rfl

theorem reOf_cases (m : Matrix) (hA : InvariantA m) :
    reOf m.vals = [] ∨ (reOf m.vals).length = m.nvals := by
  obtain ⟨_, _, hvl⟩ := hA
  cases hv : m.vals with
  | complex xs ys =>
    right
    rw [hv] at hvl
    exact hvl.1
  | real xs => exact Or.inl rfl
  | integer xs => exact Or.inl rfl
  | bool => exact Or.inl rfl

theorem imOf_cases (m : Matrix) (hA : InvariantA m) :
    imOf m.vals = [] ∨ (imOf m.vals).length = m.nvals := by
  obtain ⟨_, _, hvl⟩ := hA
  cases hv : m.vals with
  | complex xs ys =>
    right
    rw [hv] at hvl
    exact hvl.2
  | real xs => exact Or.inl rfl
  | integer xs => exact Or.inl rfl
  | bool => exact Or.inl rfl

theorem intsOf_cases (m : Matrix) (hA : InvariantA m) :
    intsOf m.vals = [] ∨ (intsOf m.vals).length = m.nvals := by
  obtain ⟨_, _, hvl⟩ := hA
  cases hv : m.vals with
  | integer xs =>
    right
    rw [hv] at hvl
    exact hvl
  | real xs => exact Or.inl rfl
  | complex xs ys => exact Or.inl rfl
  | bool => exact Or.inl rfl

/-- The cycle-following reorderings succeed and compute the permuted store
for any well-formed store, without the distinct-keys assumption. -/
theorem apply_permutation_spec (m : Matrix) (p : List Nat) (hA : InvariantA m)
    (hp : p.length = m.nvals) (hlt : ∀ x ∈ p, x < m.nvals) (hnd : p.Nodup)
    (hmark : m.nvals ≤ MARK) :
    m.apply_permutation p = some (permuteSpec m p) := by
  rw [Matrix.apply_permutation, applyPermutationFull_eq hA hp hlt hnd hmark,
    Option.map_some']

theorem permuteSpec_complexConsistent (m : Matrix) (p : List Nat)
    (xs ys : List Rat) (hv : m.vals = .complex xs ys)
    (hp : p.length = m.nvals) (hlt : ∀ x ∈ p, x < m.nvals) :
    ComplexConsistent m xs ys (permuteSpec m p) := by
  intro i hi
  have hip : i < p.length := by
    rw [hp]
    exact hi
  refine ⟨p.getD i 0, ?_, ?_, ?_, ?_, ?_⟩
  · refine hlt _ ?_
    rw [List.getD_eq_getElem p 0 hip]
    exact List.getElem_mem _
  · exact getD_map_getD p _ 0 i hip
  · exact getD_map_getD p _ 0 i hip
  · rw [show reOf (permuteSpec m p).vals = p.map (fun j => xs.getD j 0) by
      simp only [permuteSpec, hv, reOf]]
    exact getD_map_getD p _ 0 i hip
  · rw [show imOf (permuteSpec m p).vals = p.map (fun j => ys.getD j 0) by
      simp only [permuteSpec, hv, imOf]]
    exact getD_map_getD p _ 0 i hip

theorem sortMajor_complexConsistent (m : Matrix) (keyOf : Nat × Nat → Nat × Nat)
    (hA : InvariantA m) (xs ys : List Rat) (hv : m.vals = .complex xs ys) :
    ComplexConsistent m xs ys (m.sortMajor keyOf) := by
  obtain ⟨mrows, mcols, mvals, mnr, mnc, mnv⟩ := m
  obtain ⟨hrl, hcl, hvl⟩ := hA
  simp only at hrl hcl hvl hv
  subst hv
  obtain ⟨hxl, hyl⟩ := hvl
  intro i hi
  have hslen : (sortBy ((List.range mnv).map
      (fun j => (mrows.getD j 0, mcols.getD j 0, xs.getD j 0, ys.getD j 0)))
      (fun a b => pairLe (keyOf (a.1, a.2.1)) (keyOf (b.1, b.2.1)))).length
        = mnv := by
    rw [sortBy_length, List.length_map, List.length_range]
  have hi' : i < mnv := hi
  have hb : i < (sortBy ((List.range mnv).map
      (fun j => (mrows.getD j 0, mcols.getD j 0, xs.getD j 0, ys.getD j 0)))
      (fun a b => pairLe (keyOf (a.1, a.2.1)) (keyOf (b.1, b.2.1)))).length := by
    omega
  obtain ⟨j, hjmem, hje⟩ := List.mem_map.mp
    ((sortBy_perm _ _).mem_iff.mp (List.getElem_mem hb))
  rw [List.mem_range] at hjmem
  refine ⟨j, hjmem, ?_, ?_, ?_, ?_⟩
  all_goals
    show (scatter _ _).getD i 0 = _
    simp only
    rw [scatter_eq (by
        rw [List.length_map, hslen]
        first
        | exact hrl.symm
        | exact hcl.symm
        | exact hxl.symm
        | exact hyl.symm),
      List.getD_eq_getElem _ 0 (by rw [List.length_map]; omega),
      List.getElem_map, ← hje]

/-- Claim C9: Matrix::swap exchanges row, col, and every active value
component at its two positions together (never partially); after any of the
four reorderings of a Complex store, each position's real and imaginary
components originate from the same pre-reordering position; on the
Pattern/Bool shape the value payload stays empty. -/
theorem claim_C9_value_shape (m : Matrix) (hA : InvariantA m)
    (hmark : m.nvals ≤ MARK) :
    (∀ a b, a < m.nvals → b < m.nvals →
      ((m.swap a b).rows.getD a 0 = m.rows.getD b 0 ∧
        (m.swap a b).rows.getD b 0 = m.rows.getD a 0) ∧
      ((m.swap a b).cols.getD a 0 = m.cols.getD b 0 ∧
        (m.swap a b).cols.getD b 0 = m.cols.getD a 0) ∧
      ((realsOf (m.swap a b).vals).getD a 0 = (realsOf m.vals).getD b 0 ∧
        (realsOf (m.swap a b).vals).getD b 0 = (realsOf m.vals).getD a 0) ∧
      ((reOf (m.swap a b).vals).getD a 0 = (reOf m.vals).getD b 0 ∧
        (reOf (m.swap a b).vals).getD b 0 = (reOf m.vals).getD a 0) ∧
      ((imOf (m.swap a b).vals).getD a 0 = (imOf m.vals).getD b 0 ∧
        (imOf (m.swap a b).vals).getD b 0 = (imOf m.vals).getD a 0) ∧
      ((intsOf (m.swap a b).vals).getD a 0 = (intsOf m.vals).getD b 0 ∧
        (intsOf (m.swap a b).vals).getD b 0 = (intsOf m.vals).getD a 0)) ∧
    (∀ xs ys, m.vals = .complex xs ys →
      ComplexConsistent m xs ys m.sort_row_major ∧
      ComplexConsistent m xs ys m.sort_col_major ∧
      (∃ m', m.permute_row_major = some m' ∧ ComplexConsistent m xs ys m') ∧
      (∃ m', m.permute_col_major = some m' ∧ ComplexConsistent m xs ys m')) ∧
    (m.vals = .bool →
      m.sort_row_major.vals = .bool ∧ m.sort_col_major.vals = .bool ∧
      (∃ m', m.permute_row_major = some m' ∧ m'.vals = .bool) ∧
      (∃ m', m.permute_col_major = some m' ∧ m'.vals = .bool)) := by
  have hrowperm := sortBy_range_perm_props m.nvals
    (fun a b => pairLe (m.rows.getD a 0, m.cols.getD a 0)
      (m.rows.getD b 0, m.cols.getD b 0))
  have hcolperm := sortBy_range_perm_props m.nvals
    (fun a b => pairLe (m.cols.getD a 0, m.rows.getD a 0)
      (m.cols.getD b 0, m.rows.getD b 0))
  have hrowspec : m.permute_row_major = some (permuteSpec m
      (sortBy (List.range m.nvals)
        (fun a b => pairLe (m.rows.getD a 0, m.cols.getD a 0)
          (m.rows.getD b 0, m.cols.getD b 0)))) :=
    apply_permutation_spec m _ hA hrowperm.1 hrowperm.2.1 hrowperm.2.2 hmark
  have hcolspec : m.permute_col_major = some (permuteSpec m
      (sortBy (List.range m.nvals)
        (fun a b => pairLe (m.cols.getD a 0, m.rows.getD a 0)
          (m.cols.getD b 0, m.rows.getD b 0)))) :=
    apply_permutation_spec m _ hA hcolperm.1 hcolperm.2.1 hcolperm.2.2 hmark
  refine ⟨?_, ?_, ?_⟩
  · intro a b ha hb
    have hrl := hA.1
    have hcl := hA.2.1
    refine ⟨swap_getD_pair m.rows a b 0 (Or.inr ⟨by omega, by omega⟩),
      swap_getD_pair m.cols a b 0 (Or.inr ⟨by omega, by omega⟩), ?_, ?_, ?_, ?_⟩
    · rw [swap_realsOf]
      refine swap_getD_pair _ a b 0 ?_
      rcases realsOf_cases m hA with h | h
      · exact Or.inl h
      · exact Or.inr ⟨by omega, by omega⟩
    · rw [swap_reOf]
      refine swap_getD_pair _ a b 0 ?_
      rcases reOf_cases m hA with h | h
      · exact Or.inl h
      · exact Or.inr ⟨by omega, by omega⟩
    · rw [swap_imOf]
      refine swap_getD_pair _ a b 0 ?_
      rcases imOf_cases m hA with h | h
      · exact Or.inl h
      · exact Or.inr ⟨by omega, by omega⟩
    · rw [swap_intsOf]
      refine swap_getD_pair _ a b 0 ?_
      rcases intsOf_cases m hA with h | h
      · exact Or.inl h
      · exact Or.inr ⟨by omega, by omega⟩
  · intro xs ys hv
    refine ⟨sortMajor_complexConsistent m id hA xs ys hv,
      sortMajor_complexConsistent m Prod.swap hA xs ys hv,
      ⟨_, hrowspec, permuteSpec_complexConsistent m _ xs ys hv
        hrowperm.1 hrowperm.2.1⟩,
      ⟨_, hcolspec, permuteSpec_complexConsistent m _ xs ys hv
        hcolperm.1 hcolperm.2.1⟩⟩
  · intro hv
    have hsort : ∀ keyOf, (m.sortMajor keyOf).vals = MatrixData.bool := by
      intro keyOf
      obtain ⟨mrows, mcols, mvals, mnr, mnc, mnv⟩ := m
      simp only at hv
      subst hv
      rfl
    have hperm : ∀ p : List Nat, (permuteSpec m p).vals = MatrixData.bool := by
      intro p
      simp only [permuteSpec, hv]
    exact ⟨hsort id, hsort Prod.swap, ⟨_, hrowspec, hperm _⟩,
      ⟨_, hcolspec, hperm _⟩⟩

theorem claim_C9_witness :
    (∀ a b, a < exampleComplex.nvals → b < exampleComplex.nvals →
      ((exampleComplex.swap a b).rows.getD a 0 = exampleComplex.rows.getD b 0 ∧
        (exampleComplex.swap a b).rows.getD b 0 = exampleComplex.rows.getD a 0) ∧
      ((exampleComplex.swap a b).cols.getD a 0 = exampleComplex.cols.getD b 0 ∧
        (exampleComplex.swap a b).cols.getD b 0 = exampleComplex.cols.getD a 0) ∧
      ((realsOf (exampleComplex.swap a b).vals).getD a 0 =
          (realsOf exampleComplex.vals).getD b 0 ∧
        (realsOf (exampleComplex.swap a b).vals).getD b 0 =
          (realsOf exampleComplex.vals).getD a 0) ∧
      ((reOf (exampleComplex.swap a b).vals).getD a 0 =
          (reOf exampleComplex.vals).getD b 0 ∧
        (reOf (exampleComplex.swap a b).vals).getD b 0 =
          (reOf exampleComplex.vals).getD a 0) ∧
      ((imOf (exampleComplex.swap a b).vals).getD a 0 =
          (imOf exampleComplex.vals).getD b 0 ∧
        (imOf (exampleComplex.swap a b).vals).getD b 0 =
          (imOf exampleComplex.vals).getD a 0) ∧
      ((intsOf (exampleComplex.swap a b).vals).getD a 0 =
          (intsOf exampleComplex.vals).getD b 0 ∧
        (intsOf (exampleComplex.swap a b).vals).getD b 0 =
          (intsOf exampleComplex.vals).getD a 0)) ∧
    (∀ xs ys, exampleComplex.vals = .complex xs ys →
      ComplexConsistent exampleComplex xs ys exampleComplex.sort_row_major ∧
      ComplexConsistent exampleComplex xs ys exampleComplex.sort_col_major ∧
      (∃ m', exampleComplex.permute_row_major = some m' ∧
        ComplexConsistent exampleComplex xs ys m') ∧
      (∃ m', exampleComplex.permute_col_major = some m' ∧
        ComplexConsistent exampleComplex xs ys m')) ∧
    (exampleComplex.vals = .bool →
      exampleComplex.sort_row_major.vals = .bool ∧
      exampleComplex.sort_col_major.vals = .bool ∧
      (∃ m', exampleComplex.permute_row_major = some m' ∧ m'.vals = .bool) ∧
      (∃ m', exampleComplex.permute_col_major = some m' ∧ m'.vals = .bool)) :=
  claim_C9_value_shape exampleComplex (by decide) (by decide)

/-- Claim C10: the Debug formatter slices the parallel arrays to the
formatter width (default 5) unconditionally, so for a store with fewer than
5 entries and no explicit width it panics (an out-of-range slice) instead of
printing; main invokes it with no width after both phases. -/
theorem claim_C10_debug_panics (m : Matrix) (p : Option Nat)
    (hA : InvariantA m) (hsmall : m.nvals < 5) :
    m.fmtDebug none p = none := by
  obtain ⟨hrl, _, _⟩ := hA
  have hnone : sliceTo m.rows ((none : Option Nat).getD 5) = none := by
    rw [sliceTo, if_neg]
    rw [hrl]
    simp
    omega
  rw [Matrix.fmtDebug]
  simp only [hnone, Option.bind_eq_bind, Option.none_bind, Option.bind_none]

theorem claim_C10_witness : exampleReal.fmtDebug none none = none :=
  claim_C10_debug_panics exampleReal none (by decide) (by decide)


/-! Claim C5: the concrete end-to-end scenario. -/

/-- Input of the concrete scenario of claim C5. -/
def c5Input : List Char :=
  "2 2 3\n1 1 5.0\n2 2 3.0\n1 2 4.0\n".toList

/-- Claim C5, counterexample: reading the scenario input with element type
Real, reordering row-major and writing the store does NOT produce the text
claimed by the spec.  The lines are indeed reordered by ascending (row, col)
with each value travelling with its coordinates, but Rust's float `Display`
prints the integral values `5.0`, `4.0`, `3.0` back as `5`, `4`, `3`, so the
data lines lose their `.0` suffixes. -/
theorem claim_C5_counterexample :
    (Matrix.from_reader c5Input DataType.real).map
      (fun m => m.sort_row_major.display) ≠
    some "2 2 3\n1 1 5.0\n1 2 4.0\n2 2 3.0\n" := by
  decide

/-- Claim C5, amended: the scenario pipeline produces exactly the header and
the three data lines in ascending (row, col) order, each payload value
travelling with its coordinates, but re-serialized in Rust float `Display`
form, which prints integral values without a fractional part. -/
theorem claim_C5_scenario :
    (Matrix.from_reader c5Input DataType.real).map
      (fun m => m.sort_row_major.display) =
    some "2 2 3\n1 1 5\n1 2 4\n2 2 3\n" := by
  decide

/-! Claim C7: empty and comment-only inputs. -/

/-- A predicate-true list is fully consumed by `dropWhile`. -/
theorem dropWhile_eq_nil_of_all {α : Type _} (p : α → Bool) :
    ∀ l : List α, (∀ x ∈ l, p x = true) → l.dropWhile p = [] := by
  intro l
  induction l with
  | nil => intro h; rfl
  | cons a t IH =>
    intro h
    rw [List.dropWhile_cons, if_pos (h a (by simp))]
    exact IH (fun x hx => h x (by simp [hx]))

/-- When every newline piece trims to a `%`-headed line, `mmapSkip` consumes
the whole input. -/
theorem mmapSkip_all_comment :
    ∀ ls : List (List Char),
      (∀ l ∈ ls, (trimAscii l).head? = some '%') → mmapSkip ls = some [] := by
  intro ls
  induction ls with
  | nil => intro h; rfl
  | cons l ls IH =>
    intro h
    have hl := h l (by simp)
    match hc : trimAscii l with
    | [] => rw [hc] at hl; simp at hl
    | c :: r =>
      rw [hc] at hl
      simp only [List.head?] at hl
      have hc' : c = '%' := by injection hl
      subst hc'
      simp only [mmapSkip, hc, if_pos]
      exact IH (fun x hx => h x (by simp [hx]))

/-- Claim C7 (amended): for every input all of whose reader lines are
comments (which includes the empty input, whose reader-line list is empty),
`from_reader` returns the all-zero Entry Store with an empty active-variant
payload; `from_mmap` does so for every input all of whose newline-split
pieces trim to a `%`-headed comment (a family excluding the empty input and
any input with a blank or trailing-newline-induced empty piece, on which
`from_mmap` panics instead — see the counterexample); writing the all-zero
store produces exactly the header line `0 0 0` and no data lines. -/
theorem claim_C7_empty_input :
    (∀ (input : List Char) (dt : DataType),
      (∀ l ∈ readerLines input, l.head? = some '%') →
        Matrix.from_reader input dt = some (emptyMatrix dt)) ∧
    (∀ (input : List Char) (dt : DataType),
      (∀ l ∈ splitNl input, (trimAscii l).head? = some '%') →
        Matrix.from_mmap input dt = some (emptyMatrix dt)) ∧
    (∀ dt, (emptyMatrix dt).nrows = 0 ∧ (emptyMatrix dt).ncols = 0 ∧
      (emptyMatrix dt).nvals = 0 ∧ (emptyMatrix dt).vals = MatrixData.new dt ∧
      (emptyMatrix dt).display = "0 0 0\n") := by
  refine ⟨?_, ?_, ?_⟩
  · intro input dt h
    have hd : (readerLines input).dropWhile
        (fun l => decide (l.head? = some '%')) = [] :=
      dropWhile_eq_nil_of_all _ _ (fun x hx => decide_eq_true (h x hx))
    simp only [Matrix.from_reader, hd]
  · intro input dt h
    simp only [Matrix.from_mmap, mmapSkip_all_comment _ h]
    rfl
  · intro dt
    refine ⟨rfl, rfl, rfl, rfl, ?_⟩
    cases dt <;> rfl

/-- Claim C7 witness: the amended theorem applied to the one-line comment
input `%c` (no trailing newline). -/
theorem claim_C7_witness :
    Matrix.from_reader "%c".toList DataType.real =
      some (emptyMatrix DataType.real) ∧
    Matrix.from_mmap "%c".toList DataType.real =
      some (emptyMatrix DataType.real) ∧
    (emptyMatrix DataType.real).display = "0 0 0\n" :=
  ⟨claim_C7_empty_input.1 "%c".toList DataType.real (by decide),
   claim_C7_empty_input.2.1 "%c".toList DataType.real (by decide),
   (claim_C7_empty_input.2.2 DataType.real).2.2.2.2⟩

/-- Claim C7, counterexample: `from_mmap` does not return the empty store on
the empty input, nor on the comment-only input `%c\n` that ends in a newline;
both panic (the blank final split piece makes `b.trim_ascii()[0]` index out
of bounds), contradicting the claim for the memory-mapped reader. -/
theorem claim_C7_counterexample :
    Matrix.from_mmap "".toList DataType.real = none ∧
    Matrix.from_mmap "%c\n".toList DataType.real = none := by
  decide

/-! Claim C6: a missing or unparseable required field aborts the whole read
(`unwrap` on the parse `Result` panics; the panic carries the `ParseError`
and no Entry Store is returned, `none` in this embedding). -/

/-- Variant tag of `MatrixData::new`. -/
theorem tagOf_new (dt : DataType) : tagOf (MatrixData.new dt) = dt := by
  cases dt <;> rfl

/-- Failure of `readerLine` does not depend on the accumulated rows, cols or
payload contents, only on the payload's variant tag. -/
theorem readerLine_none_any (line : List Char) (rows cols : List Nat)
    (v : MatrixData)
    (h : readerLine line [] [] (MatrixData.new (tagOf v)) = none) :
    readerLine line rows cols v = none := by
  cases v <;>
    simp only [readerLine, MatrixData.new, tagOf, Option.pure_def,
      Option.bind_eq_bind, Option.bind_eq_none, reduceCtorEq,
      imp_false] at h ⊢ <;>
    exact h

/-- A successful `readerLine` step keeps the payload's variant tag. -/
theorem readerLine_tag (line : List Char) (rows cols : List Nat)
    (v : MatrixData) (out : List Nat × List Nat × MatrixData)
    (h : readerLine line rows cols v = some out) : tagOf out.2.2 = tagOf v := by
  cases v with
  | real xs =>
    simp only [readerLine, Option.pure_def, Option.bind_eq_bind,
      Option.bind_eq_some] at h
    obtain ⟨a, _, b, _, x, _, hout⟩ := h
    injection hout with hout
    rw [← hout]
    rfl
  | complex xs ys =>
    simp only [readerLine, Option.pure_def, Option.bind_eq_bind,
      Option.bind_eq_some] at h
    obtain ⟨a, _, b, _, x, _, y, _, hout⟩ := h
    injection hout with hout
    rw [← hout]
    rfl
  | integer xs =>
    simp only [readerLine, Option.pure_def, Option.bind_eq_bind,
      Option.bind_eq_some] at h
    obtain ⟨a, _, b, _, x, _, hout⟩ := h
    injection hout with hout
    rw [← hout]
    rfl
  | bool =>
    simp only [readerLine, Option.pure_def, Option.bind_eq_bind,
      Option.bind_eq_some] at h
    obtain ⟨a, _, b, _, hout⟩ := h
    injection hout with hout
    rw [← hout]

/-- One bad line anywhere in the remaining lines makes the reader loop fail,
whatever has already been accumulated. -/
theorem readerLoop_none (bad : List Char) :
    ∀ (lines : List (List Char)) (rows cols : List Nat) (v : MatrixData),
      bad ∈ lines →
      readerLine bad [] [] (MatrixData.new (tagOf v)) = none →
      readerLoop lines rows cols v = none := by
  intro lines
  induction lines with
  | nil =>
    intro rows cols v hmem
    exact absurd hmem (List.not_mem_nil bad)
  | cons x rest IH =>
    intro rows cols v hmem hbad
    rcases List.mem_cons.mp hmem with h | h
    · have hbadx : readerLine x [] [] (MatrixData.new (tagOf v)) = none := by
        rw [← h]; exact hbad
      rw [readerLoop, readerLine_none_any x rows cols v hbadx]
      rfl
    · cases hline : readerLine x rows cols v with
      | none => rw [readerLoop, hline]; rfl
      | some out =>
        obtain ⟨r₂, c₂, v₂⟩ := out
        have htag := readerLine_tag x rows cols v (r₂, c₂, v₂) hline
        have hbad₂ : readerLine bad [] [] (MatrixData.new (tagOf v₂)) = none := by
          rw [htag]; exact hbad
        rw [readerLoop, hline]
        exact IH r₂ c₂ v₂ h hbad₂

/-- One element mapping to `none` fails the whole `mapM`. -/
theorem mapM_none {α β : Type _} (f : α → Option β) :
    ∀ (l : List α) (x : α), x ∈ l → f x = none → l.mapM f = none := by
  intro l
  induction l with
  | nil =>
    intro x hx
    exact absurd hx (List.not_mem_nil x)
  | cons a t IH =>
    intro x hx hfx
    rw [List.mapM_cons]
    rcases List.mem_cons.mp hx with h | h
    · subst h
      rw [hfx]
      rfl
    · cases hfa : f a with
      | none => rfl
      | some b =>
        rw [IH x h hfx]
        rfl

/-- Per-variant failure of a `from_mmap` data line. -/
def mmapLineFails (dt : DataType) (line : List Char) : Bool :=
  match dt with
  | .real => mmapLineReal line = none
  | .complex => mmapLineComplex line = none
  | .integer => mmapLineInteger line = none
  | .bool => mmapLineBool line = none

/-- Claim C6: whenever a required field of the header or of a data line is
missing (the token index is out of range) or not parseable as the expected
numeric type for the declared element type, both readers abort the whole
read with no partial Entry Store returned (the Rust `unwrap` panic carrying
the `ParseError`, `none` in this embedding).  The four conjuncts cover the
header and the data lines of `from_reader` and of `from_mmap`. -/
theorem claim_C6_parse_errors :
    (∀ (input : List Char) (dt : DataType) (header : List Char)
        (rest : List (List Char)),
      (readerLines input).dropWhile (fun l => decide (l.head? = some '%')) =
        header :: rest →
      ((splitAsciiWs header)[0]?.bind parseNat = none ∨
       (splitAsciiWs header)[1]?.bind parseNat = none ∨
       (splitAsciiWs header)[2]?.bind parseNat = none) →
      Matrix.from_reader input dt = none) ∧
    (∀ (input : List Char) (dt : DataType) (header : List Char)
        (rest : List (List Char)) (bad : List Char),
      (readerLines input).dropWhile (fun l => decide (l.head? = some '%')) =
        header :: rest →
      bad ∈ rest →
      readerLine bad [] [] (MatrixData.new dt) = none →
      Matrix.from_reader input dt = none) ∧
    (∀ (input : List Char) (dt : DataType) (header : List Char)
        (rest : List (List Char)),
      mmapSkip (splitNl input) = some (header :: rest) →
      ((splitWsKeep header)[0]?.bind parseNat = none ∨
       (splitWsKeep header)[1]?.bind parseNat = none ∨
       (splitWsKeep header)[2]?.bind parseNat = none) →
      Matrix.from_mmap input dt = none) ∧
    (∀ (input : List Char) (dt : DataType) (header : List Char)
        (rest : List (List Char)) (nv : Nat) (bad : List Char),
      mmapSkip (splitNl input) = some (header :: rest) →
      (splitWsKeep header)[2]?.bind parseNat = some nv →
      bad ∈ rest.take nv →
      mmapLineFails dt bad = true →
      Matrix.from_mmap input dt = none) := by
  refine ⟨?_, ?_, ?_, ?_⟩
  · intro input dt header rest hdrop hfail
    simp only [Matrix.from_reader, hdrop]
    rcases hfail with h | h | h
    · simp only [h]
      rfl
    · cases h0 : (splitAsciiWs header)[0]?.bind parseNat with
      | none => rfl
      | some a => simp only [h]; rfl
    · cases h0 : (splitAsciiWs header)[0]?.bind parseNat with
      | none => rfl
      | some a =>
        cases h1 : (splitAsciiWs header)[1]?.bind parseNat with
        | none => rfl
        | some b => simp only [h]; rfl
  · intro input dt header rest bad hdrop hmem hbad
    simp only [Matrix.from_reader, hdrop]
    have hloop : readerLoop rest [] [] (MatrixData.new dt) = none := by
      refine readerLoop_none bad rest [] [] (MatrixData.new dt) hmem ?_
      rw [tagOf_new]
      exact hbad
    cases h0 : (splitAsciiWs header)[0]?.bind parseNat with
    | none => rfl
    | some a =>
      cases h1 : (splitAsciiWs header)[1]?.bind parseNat with
      | none => rfl
      | some b =>
        cases h2 : (splitAsciiWs header)[2]?.bind parseNat with
        | none => rfl
        | some c => simp only [hloop]; rfl
  · intro input dt header rest hskip hfail
    simp only [Matrix.from_mmap, hskip, Option.bind_eq_bind, Option.some_bind]
    rcases hfail with h | h | h
    · simp only [h]
      rfl
    · cases h0 : (splitWsKeep header)[0]?.bind parseNat with
      | none => rfl
      | some a => simp only [h]; rfl
    · cases h0 : (splitWsKeep header)[0]?.bind parseNat with
      | none => rfl
      | some a =>
        cases h1 : (splitWsKeep header)[1]?.bind parseNat with
        | none => rfl
        | some b => simp only [h]; rfl
  · intro input dt header rest nv bad hskip h2 hmem hfail
    simp only [Matrix.from_mmap, hskip, Option.bind_eq_bind, Option.some_bind]
    cases h0 : (splitWsKeep header)[0]?.bind parseNat with
    | none => rfl
    | some a =>
      cases h1 : (splitWsKeep header)[1]?.bind parseNat with
      | none => rfl
      | some b =>
        cases dt with
        | real =>
          have hm : (rest.take nv).mapM mmapLineReal = none :=
            mapM_none mmapLineReal (rest.take nv) bad hmem
              (of_decide_eq_true hfail)
          simp only [h2, Option.some_bind, hm]
          rfl
        | complex =>
          have hm : (rest.take nv).mapM mmapLineComplex = none :=
            mapM_none mmapLineComplex (rest.take nv) bad hmem
              (of_decide_eq_true hfail)
          simp only [h2, Option.some_bind, hm]
          rfl
        | integer =>
          have hm : (rest.take nv).mapM mmapLineInteger = none :=
            mapM_none mmapLineInteger (rest.take nv) bad hmem
              (of_decide_eq_true hfail)
          simp only [h2, Option.some_bind, hm]
          rfl
        | bool =>
          have hm : (rest.take nv).mapM mmapLineBool = none :=
            mapM_none mmapLineBool (rest.take nv) bad hmem
              (of_decide_eq_true hfail)
          simp only [h2, Option.some_bind, hm]
          rfl

/-- Claim C6 witness: the theorem applied to four concrete malformed inputs,
one per conjunct (a header missing its third field, and a data line whose
column token `x` is not numeric, for each reader). -/
theorem claim_C6_witness :
    Matrix.from_reader "1 1\n".toList DataType.real = none ∧
    Matrix.from_reader "1 1 1\n1 x 2.0\n".toList DataType.real = none ∧
    Matrix.from_mmap "1 1".toList DataType.real = none ∧
    Matrix.from_mmap "1 1 1\n1 x 2.0".toList DataType.real = none :=
  ⟨claim_C6_parse_errors.1 "1 1\n".toList DataType.real "1 1".toList []
      (by decide) (by decide),
   claim_C6_parse_errors.2.1 "1 1 1\n1 x 2.0\n".toList DataType.real
      "1 1 1".toList ["1 x 2.0".toList] "1 x 2.0".toList
      (by decide) (by decide) (by decide),
   claim_C6_parse_errors.2.2.1 "1 1".toList DataType.real "1 1".toList []
      (by decide) (by decide),
   claim_C6_parse_errors.2.2.2 "1 1 1\n1 x 2.0".toList DataType.real
      "1 1 1".toList ["1 x 2.0".toList] 1 "1 x 2.0".toList
      (by decide) (by decide) (by decide) (by decide)⟩

/-! Claim C4: reader equivalence.  The statement that renders a structured
input (comment lines, a header line, data lines, joined by single newlines)
needs a render function and a well-formedness predicate for a single line. -/

/-- Join lines with single `\n` separators and no trailing newline. -/
def joinLines : List (List Char) → List Char
  | [] => []
  | [l] => l
  | l :: ls => l ++ '\n' :: joinLines ls

/-- Well-formedness of one header or data line: no embedded line break, and
no empty whitespace-split piece (no leading, trailing, or doubled
whitespace), so that the byte-level split of `from_mmap` and the
`split_ascii_whitespace` of `from_reader` see the same tokens. -/
def wfLine (l : List Char) : Prop :=
  '\n' ∉ l ∧ '\r' ∉ l ∧ ∀ t ∈ splitWsKeep l, t ≠ []

instance (l : List Char) : Decidable (wfLine l) := by
  unfold wfLine
  infer_instance

/-- Newline-free lists are a single `splitNl` piece. -/
theorem splitNl_eq_single (l : List Char) (h : '\n' ∉ l) :
    splitNl l = [l] := by
  induction l with
  | nil => rfl
  | cons c rest IH =>
    have hc : ¬(c = '\n') := fun hc => h (hc ▸ List.mem_cons_self c rest)
    have hr : '\n' ∉ rest := fun hm => h (List.mem_cons_of_mem c hm)
    rw [splitNl, if_neg hc, IH hr]

/-- Splitting after a newline-free prefix peels one piece. -/
theorem splitNl_append (l t : List Char) (h : '\n' ∉ l) :
    splitNl (l ++ '\n' :: t) = l :: splitNl t := by
  induction l with
  | nil => simp [splitNl]
  | cons c rest IH =>
    have hc : ¬(c = '\n') := fun hc => h (hc ▸ List.mem_cons_self c rest)
    have hr : '\n' ∉ rest := fun hm => h (List.mem_cons_of_mem c hm)
    rw [List.cons_append, splitNl, if_neg hc, IH hr]

/-- `splitNl` recovers the lines joined by `joinLines`. -/
theorem splitNl_joinLines :
    ∀ ls : List (List Char), ls ≠ [] → (∀ l ∈ ls, '\n' ∉ l) →
      splitNl (joinLines ls) = ls := by
  intro ls
  induction ls with
  | nil => intro h; exact absurd rfl h
  | cons l rest IH =>
    intro _ hfree
    cases rest with
    | nil => exact splitNl_eq_single l (hfree l (by simp))
    | cons l₂ rest₂ =>
      show splitNl (l ++ '\n' :: joinLines (l₂ :: rest₂)) = l :: l₂ :: rest₂
      rw [splitNl_append l _ (hfree l (by simp)),
        IH (List.cons_ne_nil l₂ rest₂)
          (fun x hx => hfree x (List.mem_cons_of_mem l hx))]

/-- A line without carriage returns is unchanged by `dropTrailCr`. -/
theorem dropTrailCr_eq_self (l : List Char) (h : '\r' ∉ l) :
    dropTrailCr l = l := by
  rw [dropTrailCr]
  cases hl : l.getLast? with
  | none => rfl
  | some c =>
    have hc : c ∈ l := List.mem_of_mem_getLast? hl
    have hne : c ≠ '\r' := fun hr => h (hr ▸ hc)
    split
    next heq =>
      injection heq with heq
      exact absurd heq hne
    next => rfl

/-- Mapping a function that fixes every member is the identity. -/
theorem map_eq_self_of_all {α : Type _} (f : α → α) :
    ∀ l : List α, (∀ x ∈ l, f x = x) → l.map f = l := by
  intro l
  induction l with
  | nil => intro h; rfl
  | cons a t IH =>
    intro h
    rw [List.map_cons, h a (by simp), IH (fun x hx => h x (by simp [hx]))]

/-- `BufRead::lines` on a rendered input recovers the lines, provided none
contains a line break or carriage return and the last one is nonempty. -/
theorem readerLines_joinLines (ls : List (List Char)) (hne : ls ≠ [])
    (hnl : ∀ l ∈ ls, '\n' ∉ l) (hcr : ∀ l ∈ ls, '\r' ∉ l)
    (hlast : ls.getLast? ≠ some []) :
    readerLines (joinLines ls) = ls := by
  rw [readerLines, splitNl_joinLines ls hne hnl]
  cases hgl : ls.getLast? with
  | none => exact absurd (List.getLast?_eq_none_iff.mp hgl) hne
  | some last =>
    have hlne : ¬(last = []) := fun h => hlast (by rw [hgl, h])
    show (if last = [] then ls.dropLast.map dropTrailCr
      else ls.dropLast.map dropTrailCr ++ [dropTrailCr last]) = ls
    rw [if_neg hlne]
    have hinit : ls.dropLast.map dropTrailCr = ls.dropLast :=
      map_eq_self_of_all _ _
        (fun x hx => dropTrailCr_eq_self x (hcr x (List.mem_of_mem_dropLast hx)))
    rw [hinit,
      dropTrailCr_eq_self last (hcr last (List.mem_of_mem_getLast? hgl)),
      List.dropLast_append_getLast? last hgl]

/-- `splitWsKeep` always returns at least one piece. -/
theorem splitWsKeep_ne_nil : ∀ l : List Char, splitWsKeep l ≠ [] := by
  intro l
  cases l with
  | nil => simp [splitWsKeep]
  | cons c rest =>
    rw [splitWsKeep]
    by_cases hc : isAsciiWs c = true
    · rw [if_pos hc]
      simp
    · rw [if_neg hc]
      cases splitWsKeep rest <;> simp

/-- `dropWhile` is the identity when the head does not satisfy `p`. -/
theorem dropWhile_eq_self_of_head {α : Type _} (p : α → Bool) (l : List α)
    (h : ∀ c, l.head? = some c → p c = false) : l.dropWhile p = l := by
  cases l with
  | nil => rfl
  | cons c rest =>
    rw [List.dropWhile_cons, if_neg]
    rw [h c rfl]
    simp

/-- A trailing whitespace byte makes the last `splitWsKeep` piece empty (and
there are at least two pieces). -/
theorem splitWsKeep_concat_ws (c : Char) (hc : isAsciiWs c = true) :
    ∀ l : List Char, (splitWsKeep (l ++ [c])).getLast? = some [] ∧
      2 ≤ (splitWsKeep (l ++ [c])).length := by
  intro l
  induction l with
  | nil =>
    rw [List.nil_append, splitWsKeep, if_pos hc]
    exact ⟨rfl, by decide⟩
  | cons d rest IH =>
    rw [List.cons_append, splitWsKeep]
    by_cases hd : isAsciiWs d = true
    · rw [if_pos hd]
      refine ⟨?_, ?_⟩
      · show ([[]] ++ splitWsKeep (rest ++ [c])).getLast? = some []
        rw [List.getLast?_append, IH.1]
        rfl
      · rw [List.length_cons]
        omega
    · rw [if_neg hd]
      cases hS : splitWsKeep (rest ++ [c]) with
      | nil => exact absurd hS (splitWsKeep_ne_nil _)
      | cons x xs =>
        have h1 := hS ▸ IH.1
        have h2 := hS ▸ IH.2
        cases xs with
        | nil => simp at h2
        | cons x₂ xs₂ =>
          refine ⟨?_, ?_⟩
          · rw [List.getLast?_cons_cons]
            rw [List.getLast?_cons_cons] at h1
            exact h1
          · simp

/-- A well-formed line (no empty whitespace-split piece) is already
trimmed. -/
theorem trimAscii_eq_self (l : List Char)
    (hl : ∀ t ∈ splitWsKeep l, t ≠ []) : trimAscii l = l := by
  have hhead : ∀ c, l.head? = some c → isAsciiWs c = false := by
    intro c hc
    cases l with
    | nil => simp at hc
    | cons d rest =>
      injection hc with hc
      rw [← hc]
      cases hws : isAsciiWs d with
      | false => rfl
      | true =>
        have hmem : ([] : List Char) ∈ splitWsKeep (d :: rest) := by
          rw [splitWsKeep, if_pos hws]
          simp
        exact absurd rfl (hl [] hmem)
  have hlastc : ∀ c, l.getLast? = some c → isAsciiWs c = false := by
    intro c hc
    cases hws : isAsciiWs c with
    | false => rfl
    | true =>
      have hdecomp : l.dropLast ++ [c] = l := List.dropLast_append_getLast? c hc
      have hmm := (splitWsKeep_concat_ws c hws l.dropLast).1
      rw [hdecomp] at hmm
      exact absurd rfl (hl [] (List.mem_of_mem_getLast? hmm))
  rw [trimAscii, dropWhile_eq_self_of_head _ _ hhead,
    dropWhile_eq_self_of_head _ _
      (fun c hc => hlastc c (by rw [← List.head?_reverse l]; exact hc)),
    List.reverse_reverse]

/-- On a well-formed line, `split_ascii_whitespace` and the byte-level split
see the same tokens. -/
theorem splitAsciiWs_eq_keep (l : List Char)
    (hl : ∀ t ∈ splitWsKeep l, t ≠ []) : splitAsciiWs l = splitWsKeep l := by
  rw [splitAsciiWs]
  refine List.filter_eq_self.mpr ?_
  intro t ht
  cases t with
  | nil => exact absurd rfl (hl [] ht)
  | cons c r => rfl

/-- A well-formed line is nonempty. -/
theorem wfLine_ne_nil (l : List Char) (h : wfLine l) : l ≠ [] := by
  intro hnil
  subst hnil
  exact (h.2.2 [] (by rw [splitWsKeep]; simp)) rfl

/-- The head byte of a line is the head of its first whitespace token. -/
theorem splitWsKeep_first_tok (l : List Char) (ts : List (List Char))
    (c : Char) (rest : List Char) (h : splitWsKeep l = (c :: rest) :: ts) :
    l.head? = some c := by
  cases l with
  | nil =>
    rw [splitWsKeep] at h
    injection h with h1
    exact absurd h1.symm (List.cons_ne_nil c rest)
  | cons d r =>
    rw [splitWsKeep] at h
    by_cases hd : isAsciiWs d = true
    · rw [if_pos hd] at h
      injection h with h1
      exact absurd h1.symm (List.cons_ne_nil c rest)
    · rw [if_neg hd] at h
      cases hS : splitWsKeep r with
      | nil => exact absurd hS (splitWsKeep_ne_nil r)
      | cons x xs =>
        rw [hS] at h
        injection h with h1
        injection h1 with h1
        rw [List.head?_cons, h1]

/-- A token accepted by `usize::from_str` cannot start with `%`. -/
theorem parseNat_head_not_comment (c : Char) (r : List Char) (n : Nat)
    (h : parseNat (c :: r) = some n) : c ≠ '%' := by
  intro hc
  subst hc
  rw [show parseNat ('%' :: r) = none from rfl] at h
  exact Option.noConfusion h

/-- The head of the first whitespace token of a line whose first token
parses as a `usize` is not `%`. -/
theorem header_head_not_comment (header : List Char) (nr : Nat)
    (hwf : ∀ t ∈ splitWsKeep header, t ≠ [])
    (h : (splitWsKeep header)[0]?.bind parseNat = some nr) :
    ∃ c, header.head? = some c ∧ c ≠ '%' := by
  rcases Option.bind_eq_some.mp h with ⟨t0, ht0, hparse⟩
  cases hS : splitWsKeep header with
  | nil => exact absurd hS (splitWsKeep_ne_nil header)
  | cons x xs =>
    rw [hS] at ht0
    have hx : x = t0 := by simpa using ht0
    subst hx
    cases hxc : x with
    | nil =>
      rw [hxc] at hS
      exact absurd rfl (hwf [] (by rw [hS]; simp))
    | cons c tr =>
      rw [hxc] at hS hparse
      exact ⟨c, splitWsKeep_first_tok header xs c tr hS,
        parseNat_head_not_comment c tr nr hparse⟩

/-- Dropping while everything before a failing element satisfies the
predicate stops exactly there. -/
theorem dropWhile_comments {α : Type _} (p : α → Bool) :
    ∀ (l₁ : List α) (y : α) (l₂ : List α),
      (∀ x ∈ l₁, p x = true) → p y = false →
      (l₁ ++ y :: l₂).dropWhile p = y :: l₂ := by
  intro l₁
  induction l₁ with
  | nil =>
    intro y l₂ _ hy
    rw [List.nil_append, List.dropWhile_cons, if_neg (by simp [hy])]
  | cons a t IH =>
    intro y l₂ hall hy
    rw [List.cons_append, List.dropWhile_cons, if_pos (hall a (by simp))]
    exact IH y l₂ (fun x hx => hall x (by simp [hx])) hy

/-- `dropWhile` of a list ending in a non-matching element is nonempty and
still ends in it. -/
theorem dropWhile_concat_keep (x : Char) (hx : isAsciiWs x = false) :
    ∀ a : List Char, (a ++ [x]).dropWhile isAsciiWs ≠ [] ∧
      ((a ++ [x]).dropWhile isAsciiWs).getLast? = some x := by
  intro a
  induction a with
  | nil =>
    constructor <;> simp [List.dropWhile_cons, hx]
  | cons d a IH =>
    rw [List.cons_append, List.dropWhile_cons]
    by_cases hd : isAsciiWs d = true
    · rw [if_pos hd]
      exact IH
    · rw [if_neg hd]
      refine ⟨List.cons_ne_nil _ _, ?_⟩
      show ((d :: a) ++ [x]).getLast? = some x
      exact List.getLast?_concat _

/-- A `%`-headed line trims to a `%`-headed line. -/
theorem trimAscii_comment_head (l : List Char) (h : l.head? = some '%') :
    ∃ r, trimAscii l = '%' :: r := by
  cases l with
  | nil => simp at h
  | cons c rest =>
    injection h with h
    subst h
    rw [trimAscii, dropWhile_eq_self_of_head isAsciiWs ('%' :: rest)
      (fun d hd => by injection hd with hd; rw [← hd]; rfl),
      List.reverse_cons]
    obtain ⟨hne, hlast⟩ := dropWhile_concat_keep '%' (by decide) rest.reverse
    cases hm : (rest.reverse ++ ['%']).dropWhile isAsciiWs with
    | nil => exact absurd hm hne
    | cons c₂ t =>
      rw [hm] at hlast
      rw [← List.head?_reverse] at hlast
      cases hrev : (c₂ :: t).reverse with
      | nil => rw [hrev] at hlast; simp at hlast
      | cons c₃ t₃ =>
        rw [hrev] at hlast
        injection hlast with hlast
        exact ⟨t₃, by rw [hlast]⟩

/-- `mmapSkip` skips exactly the leading `%`-headed lines and stops at a line
whose trim starts with another byte. -/
theorem mmapSkip_comments (comments : List (List Char)) (header : List Char)
    (rest : List (List Char))
    (hcom : ∀ l ∈ comments, l.head? = some '%')
    (hhead : ∃ c r, trimAscii header = c :: r ∧ c ≠ '%') :
    mmapSkip (comments ++ header :: rest) = some (header :: rest) := by
  induction comments with
  | nil =>
    obtain ⟨c, r, htrim, hc⟩ := hhead
    rw [List.nil_append]
    simp only [mmapSkip, htrim, if_neg hc]
  | cons l ls IH =>
    obtain ⟨r, htrim⟩ := trimAscii_comment_head l (hcom l (by simp))
    rw [List.cons_append]
    simp only [mmapSkip, htrim, if_pos]
    exact IH (fun x hx => hcom x (by simp [hx]))

/-- On a well-formed line, one `from_reader` step for the Real variant is
exactly one `from_mmap` line parse plus the pushes. -/
theorem readerLine_eq_mmapReal (l : List Char) (rows cols : List Nat)
    (xs : List Rat)
    (hsplit : splitAsciiWs l = splitWsKeep l) (htrim : trimAscii l = l) :
    readerLine l rows cols (.real xs) =
      (mmapLineReal l).map (fun e =>
        (rows ++ [e.1], cols ++ [e.2.1], .real (xs ++ [e.2.2]))) := by
  simp only [readerLine, mmapLineReal, htrim, hsplit]
  cases h0 : (splitWsKeep l)[0]?.bind parseNat with
  | none => rfl
  | some row =>
    cases h1 : (splitWsKeep l)[1]?.bind parseNat with
    | none => rfl
    | some col =>
      cases h2 : (splitWsKeep l)[2]?.bind parseReal with
      | none => rfl
      | some x => rfl

/-- Complex-variant analogue of `readerLine_eq_mmapReal`. -/
theorem readerLine_eq_mmapComplex (l : List Char) (rows cols : List Nat)
    (xs ys : List Rat)
    (hsplit : splitAsciiWs l = splitWsKeep l) :
    readerLine l rows cols (.complex xs ys) =
      (mmapLineComplex l).map (fun e =>
        (rows ++ [e.1], cols ++ [e.2.1],
          .complex (xs ++ [e.2.2.1]) (ys ++ [e.2.2.2]))) := by
  simp only [readerLine, mmapLineComplex, hsplit]
  cases h0 : (splitWsKeep l)[0]?.bind parseNat with
  | none => rfl
  | some row =>
    cases h1 : (splitWsKeep l)[1]?.bind parseNat with
    | none => rfl
    | some col =>
      cases h2 : (splitWsKeep l)[2]?.bind parseReal with
      | none => rfl
      | some x =>
        cases h3 : (splitWsKeep l)[3]?.bind parseReal with
        | none => rfl
        | some y => rfl

/-- Integer-variant analogue of `readerLine_eq_mmapReal`. -/
theorem readerLine_eq_mmapInteger (l : List Char) (rows cols : List Nat)
    (xs : List Int)
    (hsplit : splitAsciiWs l = splitWsKeep l) :
    readerLine l rows cols (.integer xs) =
      (mmapLineInteger l).map (fun e =>
        (rows ++ [e.1], cols ++ [e.2.1], .integer (xs ++ [e.2.2]))) := by
  simp only [readerLine, mmapLineInteger, hsplit]
  cases h0 : (splitWsKeep l)[0]?.bind parseNat with
  | none => rfl
  | some row =>
    cases h1 : (splitWsKeep l)[1]?.bind parseNat with
    | none => rfl
    | some col =>
      cases h2 : (splitWsKeep l)[2]?.bind parseInt with
      | none => rfl
      | some x => rfl

/-- Bool-variant analogue of `readerLine_eq_mmapReal`. -/
theorem readerLine_eq_mmapBool (l : List Char) (rows cols : List Nat)
    (hsplit : splitAsciiWs l = splitWsKeep l) :
    readerLine l rows cols .bool =
      (mmapLineBool l).map (fun e =>
        (rows ++ [e.1], cols ++ [e.2], .bool)) := by
  simp only [readerLine, mmapLineBool, hsplit]
  cases h0 : (splitWsKeep l)[0]?.bind parseNat with
  | none => rfl
  | some row =>
    cases h1 : (splitWsKeep l)[1]?.bind parseNat with
    | none => rfl
    | some col => rfl

/-- A successful `mapM` preserves length. -/
theorem mapM_length {α β : Type _} (f : α → Option β) :
    ∀ (l : List α) (ys : List β), l.mapM f = some ys → ys.length = l.length := by
  intro l
  induction l with
  | nil =>
    intro ys h
    rw [List.mapM_nil] at h
    injection h with h
    rw [← h]
    rfl
  | cons a t IH =>
    intro ys h
    rw [List.mapM_cons] at h
    cases hfa : f a with
    | none => rw [hfa] at h; simp at h
    | some b =>
      rw [hfa] at h
      cases hm : t.mapM f with
      | none => rw [hm] at h; simp at h
      | some bs =>
        rw [hm] at h
        have hys : b :: bs = ys := by simpa using h
        rw [← hys, List.length_cons, IH bs hm, List.length_cons]

/-- The sequential reader loop on well-formed Real data lines computes the
same entries as the parallel per-line parses, appended to the accumulators. -/
theorem readerLoop_mapM_real :
    ∀ (dls : List (List Char)) (rows cols : List Nat) (xs : List Rat),
      (∀ l ∈ dls, splitAsciiWs l = splitWsKeep l ∧ trimAscii l = l) →
      readerLoop dls rows cols (.real xs) =
        (dls.mapM mmapLineReal).map (fun ents =>
          (rows ++ ents.map (fun e => e.1),
           cols ++ ents.map (fun e => e.2.1),
           MatrixData.real (xs ++ ents.map (fun e => e.2.2)))) := by
  intro dls
  induction dls with
  | nil =>
    intro rows cols xs _
    rw [readerLoop, List.mapM_nil]
    simp
  | cons l t IH =>
    intro rows cols xs hwf
    rw [readerLoop,
      readerLine_eq_mmapReal l rows cols xs (hwf l (by simp)).1
        (hwf l (by simp)).2,
      List.mapM_cons]
    cases hline : mmapLineReal l with
    | none => rfl
    | some e =>
      obtain ⟨r, c, x⟩ := e
      simp only [Option.bind_eq_bind, Option.some_bind, Option.map_some']
      rw [IH (rows ++ [r]) (cols ++ [c]) (xs ++ [x])
        (fun y hy => hwf y (by simp [hy]))]
      cases hm : t.mapM mmapLineReal with
      | none => rfl
      | some ents => simp

/-- Complex-variant analogue of `readerLoop_mapM_real`. -/
theorem readerLoop_mapM_complex :
    ∀ (dls : List (List Char)) (rows cols : List Nat) (xs ys : List Rat),
      (∀ l ∈ dls, splitAsciiWs l = splitWsKeep l) →
      readerLoop dls rows cols (.complex xs ys) =
        (dls.mapM mmapLineComplex).map (fun ents =>
          (rows ++ ents.map (fun e => e.1),
           cols ++ ents.map (fun e => e.2.1),
           MatrixData.complex (xs ++ ents.map (fun e => e.2.2.1))
             (ys ++ ents.map (fun e => e.2.2.2)))) := by
  intro dls
  induction dls with
  | nil =>
    intro rows cols xs ys _
    rw [readerLoop, List.mapM_nil]
    simp
  | cons l t IH =>
    intro rows cols xs ys hwf
    rw [readerLoop,
      readerLine_eq_mmapComplex l rows cols xs ys (hwf l (by simp)),
      List.mapM_cons]
    cases hline : mmapLineComplex l with
    | none => rfl
    | some e =>
      obtain ⟨r, c, x, y⟩ := e
      simp only [Option.bind_eq_bind, Option.some_bind, Option.map_some']
      rw [IH (rows ++ [r]) (cols ++ [c]) (xs ++ [x]) (ys ++ [y])
        (fun z hz => hwf z (by simp [hz]))]
      cases hm : t.mapM mmapLineComplex with
      | none => rfl
      | some ents => simp

/-- Integer-variant analogue of `readerLoop_mapM_real`. -/
theorem readerLoop_mapM_integer :
    ∀ (dls : List (List Char)) (rows cols : List Nat) (xs : List Int),
      (∀ l ∈ dls, splitAsciiWs l = splitWsKeep l) →
      readerLoop dls rows cols (.integer xs) =
        (dls.mapM mmapLineInteger).map (fun ents =>
          (rows ++ ents.map (fun e => e.1),
           cols ++ ents.map (fun e => e.2.1),
           MatrixData.integer (xs ++ ents.map (fun e => e.2.2)))) := by
  intro dls
  induction dls with
  | nil =>
    intro rows cols xs _
    rw [readerLoop, List.mapM_nil]
    simp
  | cons l t IH =>
    intro rows cols xs hwf
    rw [readerLoop,
      readerLine_eq_mmapInteger l rows cols xs (hwf l (by simp)),
      List.mapM_cons]
    cases hline : mmapLineInteger l with
    | none => rfl
    | some e =>
      obtain ⟨r, c, x⟩ := e
      simp only [Option.bind_eq_bind, Option.some_bind, Option.map_some']
      rw [IH (rows ++ [r]) (cols ++ [c]) (xs ++ [x])
        (fun y hy => hwf y (by simp [hy]))]
      cases hm : t.mapM mmapLineInteger with
      | none => rfl
      | some ents => simp

/-- Bool-variant analogue of `readerLoop_mapM_real`. -/
theorem readerLoop_mapM_bool :
    ∀ (dls : List (List Char)) (rows cols : List Nat),
      (∀ l ∈ dls, splitAsciiWs l = splitWsKeep l) →
      readerLoop dls rows cols .bool =
        (dls.mapM mmapLineBool).map (fun ents =>
          (rows ++ ents.map (fun e => e.1),
           cols ++ ents.map (fun e => e.2),
           MatrixData.bool)) := by
  intro dls
  induction dls with
  | nil =>
    intro rows cols _
    rw [readerLoop, List.mapM_nil]
    simp
  | cons l t IH =>
    intro rows cols hwf
    rw [readerLoop,
      readerLine_eq_mmapBool l rows cols (hwf l (by simp)),
      List.mapM_cons]
    cases hline : mmapLineBool l with
    | none => rfl
    | some e =>
      obtain ⟨r, c⟩ := e
      simp only [Option.bind_eq_bind, Option.some_bind, Option.map_some']
      rw [IH (rows ++ [r]) (cols ++ [c])
        (fun y hy => hwf y (by simp [hy]))]
      cases hm : t.mapM mmapLineBool with
      | none => rfl
      | some ents => simp

/-- `padTo` is the identity on a list that already has the target length. -/
theorem padTo_eq {α : Type _} (l : List α) (d : α) (n : Nat)
    (h : l.length = n) : padTo l d n = l := by
  rw [padTo, h, Nat.sub_self]
  simp

/-- Claim C4 (amended): on a well-formed rendered input — leading `%`-headed
comment lines, a header line, and exactly as many data lines as the header's
third field announces, all lines free of line breaks and of empty
whitespace-split pieces, joined by single newlines with no trailing
newline — the memory-mapped parallel reader and the sequential reader
return identical results: the same Entry Store field for field when the
data lines parse, and failure of both when one does not.  (The unrestricted
claim is false: see the counterexample, where `from_mmap` panics on inputs
`from_reader` accepts.) -/
theorem claim_C4_reader_equiv
    (comments : List (List Char)) (header : List Char)
    (dls : List (List Char)) (dt : DataType) (nr nc nv : Nat)
    (hcom : ∀ l ∈ comments, l.head? = some '%' ∧ '\n' ∉ l ∧ '\r' ∉ l)
    (hwfh : wfLine header) (hwfd : ∀ l ∈ dls, wfLine l)
    (h0 : (splitWsKeep header)[0]?.bind parseNat = some nr)
    (h1 : (splitWsKeep header)[1]?.bind parseNat = some nc)
    (h2 : (splitWsKeep header)[2]?.bind parseNat = some nv)
    (hlen : dls.length = nv) :
    Matrix.from_mmap (joinLines (comments ++ header :: dls)) dt =
      Matrix.from_reader (joinLines (comments ++ header :: dls)) dt := by
  have hnl : ∀ l ∈ comments ++ header :: dls, '\n' ∉ l := by
    intro l hl
    rcases List.mem_append.mp hl with h | h
    · exact (hcom l h).2.1
    · rcases List.mem_cons.mp h with h | h
      · rw [h]; exact hwfh.1
      · exact (hwfd l h).1
  have hcr : ∀ l ∈ comments ++ header :: dls, '\r' ∉ l := by
    intro l hl
    rcases List.mem_append.mp hl with h | h
    · exact (hcom l h).2.2
    · rcases List.mem_cons.mp h with h | h
      · rw [h]; exact hwfh.2.1
      · exact (hwfd l h).2.1
  have hne : comments ++ header :: dls ≠ [] := by simp
  have hsplit := splitNl_joinLines _ hne hnl
  obtain ⟨hc, hheadc, hcne⟩ := header_head_not_comment header nr hwfh.2.2 h0
  have hlast : (comments ++ header :: dls).getLast? ≠ some [] := by
    rw [List.getLast?_append]
    cases hgl : (header :: dls).getLast? with
    | none => simp at hgl
    | some last =>
      have hmem : last ∈ header :: dls := List.mem_of_mem_getLast? hgl
      have hlne : last ≠ [] := by
        rcases List.mem_cons.mp hmem with h | h
        · rw [h]; exact wfLine_ne_nil _ hwfh
        · exact wfLine_ne_nil _ (hwfd last h)
      simp [hlne]
  have hreaderLines := readerLines_joinLines _ hne hnl hcr hlast
  have hdropR : (readerLines
      (joinLines (comments ++ header :: dls))).dropWhile
        (fun l => decide (l.head? = some '%')) = header :: dls := by
    rw [hreaderLines]
    refine dropWhile_comments _ comments header dls
      (fun x hx => decide_eq_true (hcom x hx).1) (decide_eq_false ?_)
    intro heq
    rw [hheadc] at heq
    exact hcne (Option.some.inj heq)
  have htrimh : trimAscii header = header := trimAscii_eq_self header hwfh.2.2
  have hskip : mmapSkip (splitNl (joinLines (comments ++ header :: dls))) =
      some (header :: dls) := by
    rw [hsplit]
    refine mmapSkip_comments comments header dls
      (fun x hx => (hcom x hx).1) ?_
    cases hh : header with
    | nil => exact absurd hh (wfLine_ne_nil header hwfh)
    | cons c0 r0 =>
      refine ⟨c0, r0, by rw [← hh]; exact htrimh, ?_⟩
      rw [hh, List.head?_cons] at hheadc
      rw [Option.some.inj hheadc]
      exact hcne
  have hsplith : splitAsciiWs header = splitWsKeep header :=
    splitAsciiWs_eq_keep header hwfh.2.2
  have htake : dls.take nv = dls := by
    rw [← hlen]
    exact List.take_length dls
  have hwfprop : ∀ l ∈ dls, splitAsciiWs l = splitWsKeep l ∧ trimAscii l = l :=
    fun l hl => ⟨splitAsciiWs_eq_keep l (hwfd l hl).2.2,
      trimAscii_eq_self l (hwfd l hl).2.2⟩
  have hwfsplit : ∀ l ∈ dls, splitAsciiWs l = splitWsKeep l :=
    fun l hl => (hwfprop l hl).1
  simp only [Matrix.from_mmap, Matrix.from_reader, hskip, hdropR, hsplith,
    h0, h1, h2, htake, Option.bind_eq_bind, Option.some_bind]
  cases dt with
  | real =>
    simp only [MatrixData.new]
    rw [readerLoop_mapM_real dls [] [] [] hwfprop]
    cases hm : dls.mapM mmapLineReal with
    | none => rfl
    | some ents =>
      have hel : ents.length = nv := by
        rw [mapM_length mmapLineReal dls ents hm, hlen]
      simp only [Option.map_some', Option.some_bind]
      rw [padTo_eq _ _ _ (by rw [List.length_map, hel]),
        padTo_eq _ _ _ (by rw [List.length_map, hel]),
        padTo_eq _ _ _ (by rw [List.length_map, hel])]
      simp
  | complex =>
    simp only [MatrixData.new]
    rw [readerLoop_mapM_complex dls [] [] [] [] hwfsplit]
    cases hm : dls.mapM mmapLineComplex with
    | none => rfl
    | some ents =>
      have hel : ents.length = nv := by
        rw [mapM_length mmapLineComplex dls ents hm, hlen]
      simp only [Option.map_some', Option.some_bind]
      rw [padTo_eq _ _ _ (by rw [List.length_map, hel]),
        padTo_eq _ _ _ (by rw [List.length_map, hel]),
        padTo_eq _ _ _ (by rw [List.length_map, hel]),
        padTo_eq _ _ _ (by rw [List.length_map, hel])]
      simp
  | integer =>
    simp only [MatrixData.new]
    rw [readerLoop_mapM_integer dls [] [] [] hwfsplit]
    cases hm : dls.mapM mmapLineInteger with
    | none => rfl
    | some ents =>
      have hel : ents.length = nv := by
        rw [mapM_length mmapLineInteger dls ents hm, hlen]
      simp only [Option.map_some', Option.some_bind]
      rw [padTo_eq _ _ _ (by rw [List.length_map, hel]),
        padTo_eq _ _ _ (by rw [List.length_map, hel]),
        padTo_eq _ _ _ (by rw [List.length_map, hel])]
      simp
  | bool =>
    simp only [MatrixData.new]
    rw [readerLoop_mapM_bool dls [] [] hwfsplit]
    cases hm : dls.mapM mmapLineBool with
    | none => rfl
    | some ents =>
      have hel : ents.length = nv := by
        rw [mapM_length mmapLineBool dls ents hm, hlen]
      simp only [Option.map_some', Option.some_bind]
      rw [padTo_eq _ _ _ (by rw [List.length_map, hel]),
        padTo_eq _ _ _ (by rw [List.length_map, hel])]
      simp

/-- Claim C4 witness: the amended equivalence applied to a concrete rendered
input with one comment, a header announcing one entry, and one Real data
line. -/
theorem claim_C4_witness :
    Matrix.from_mmap
        (joinLines (["%c".toList] ++ "2 2 1".toList :: ["1 2 3.5".toList]))
        DataType.real =
      Matrix.from_reader
        (joinLines (["%c".toList] ++ "2 2 1".toList :: ["1 2 3.5".toList]))
        DataType.real :=
  claim_C4_reader_equiv ["%c".toList] "2 2 1".toList ["1 2 3.5".toList]
    DataType.real 2 2 1 (by decide) (by decide) (by decide) (by decide)
    (by decide) (by decide) (by decide)

/-- Claim C4, counterexample: on the empty input the sequential reader
returns the empty Entry Store while the memory-mapped reader panics
(indexing `trim_ascii()[0]` of the blank split piece), so they are not
equivalent on every input byte stream. -/
theorem claim_C4_counterexample :
    Matrix.from_reader "".toList DataType.real =
      some (emptyMatrix DataType.real) ∧
    Matrix.from_mmap "".toList DataType.real = none := by
  decide

end MMT
